import Mathlib

/-!
Verification development for the garden repository: task-graph scheduler
(spec sections 4.1-4.3, modelled from the spec because the scheduler source
is not part of the sampled files), the jib plugin project-type detection,
the delete-service command, and the enterprise API token check.
-/

namespace Garden

/-! ## Jib plugin: project type detection (src/unnamed/part_001, detectProjectType) -/

/-- Project type detected by the jib plugin (`JibPluginType` in the source). -/
inductive JibPluginType
  | gradle
  | maven
deriving DecidableEq, Repr

/-- Gradle marker files, embedded from the `gradlePaths` constant. -/
def gradlePaths : List String :=
  ["build.gradle", "build.gradle.kts", "gradle.properties", "settings.gradle",
   "gradlew", "gradlew.bat", "gradlew.cmd"]

/-- Maven marker files, embedded from the `mavenPaths` constant. -/
def mavenPaths : List String := ["pom.xml", ".mvn"]

/-- The part of a `GardenModule` that `detectProjectType` consults:
its name, its path, and the list `module.version.files`. -/
structure JibModule where
  name : String
  path : String
  versionFiles : List String
deriving DecidableEq, Repr

/-- Embedding of node path resolution for a relative marker file name
against the absolute module path (`resolve(module.path, filename)`). -/
def resolvePath (dir file : String) : String := dir ++ "/" ++ file

/-- Errors thrown by the embedded code paths. `ConfigurationError` carries
its message. -/
structure ConfigurationError where
  message : String
deriving DecidableEq, Repr

/-- Embedding of `detectProjectType`: scan `gradlePaths` first, returning
`gradle` on the first marker found among the module version files; then scan
`mavenPaths` returning `maven`; otherwise throw a `ConfigurationError`
naming the module. -/
def detectProjectType (m : JibModule) : Except ConfigurationError JibPluginType :=
  match gradlePaths.find? (fun f => m.versionFiles.contains (resolvePath m.path f)) with
  | some _ => .ok .gradle
  | none =>
    match mavenPaths.find? (fun f => m.versionFiles.contains (resolvePath m.path f)) with
    | some _ => .ok .maven
    | none =>
      .error ⟨"Could not detect a gradle or maven project to build module " ++ m.name⟩

/-! ## DeleteServiceCommand.action (src/core/src/commands/delete.ts) -/

/-- A service as returned by `graph.getServices` (only its name is used). -/
structure GService where
  name : String
deriving DecidableEq, Repr

/-- A `DeleteServiceTask` as constructed by the command: one per service. -/
structure DeleteServiceTask where
  serviceName : String
deriving DecidableEq, Repr

/-- Outcome of `DeleteServiceCommand.action`: the returned result map and
the list of `DeleteServiceTask` values constructed and submitted to
`garden.processTasks`. -/
structure DeleteServiceOut (σ : Type) where
  result : List (String × σ)
  tasks : List DeleteServiceTask
deriving Repr

/-- Embedding of `DeleteServiceCommand.action`, lines 166-185: `services` is
the list returned by `graph.getServices` for the given name arguments;
`processTasks` abstracts `garden.processTasks`, and `deletedStatuses`
abstracts `deletedServiceStatuses`, both external to the sampled source.
If no services match, the command warns and returns an empty result map
without constructing any task; otherwise it builds one `DeleteServiceTask`
per service and returns the statuses derived from processing them. -/
def deleteServiceAction (σ τ : Type)
    (processTasks : List DeleteServiceTask → τ)
    (deletedStatuses : τ → List (String × σ))
    (services : List GService) : DeleteServiceOut σ :=
  if services.length = 0 then
    { result := [], tasks := [] }
  else
    let deleteServiceTasks := services.map (fun s => ⟨s.name⟩)
    { result := deletedStatuses (processTasks deleteServiceTasks)
      tasks := deleteServiceTasks }

/-! ## EnterpriseApi.checkClientAuthToken (src/core/src/enterprise/api.ts) -/

/-- Outcome of the GET `token/verify` request as seen by the catch block:
either the request succeeds, or it fails with an HTTP response carrying a
status code (`err.response.statusCode`), or it fails with no HTTP response
at all (transport-level error, `err.response === undefined`). -/
inductive ReqOutcome
  | success
  | httpError (statusCode : Nat)
  | transportError (message : String)
deriving DecidableEq, Repr

/-- What a call to `checkClientAuthToken` does: return a boolean, throw a
`RuntimeError`, or crash with a JavaScript `TypeError` (reading a property
of `undefined`). -/
inductive CheckTokenResult
  | ret (valid : Bool)
  | runtimeError (message : String)
  | typeError (message : String)
deriving DecidableEq, Repr

/-- Embedding of `checkClientAuthToken`, lines 329-345. On success, `valid`
is set to `true`. In the catch block the code reads `res = err.response`
and immediately tests `res.statusCode === 401`: when the failure carries an
HTTP response this yields `false` for 401 and a `RuntimeError` otherwise,
but when the failure has no response (`err.response` undefined) the
property access itself crashes with a `TypeError`. -/
def checkClientAuthToken (o : ReqOutcome) : CheckTokenResult :=
  match o with
  | .success => .ret true
  | .httpError statusCode =>
    if statusCode = 401 then
      .ret false
    else
      .runtimeError "An error occurred while verifying client auth token with platform"
  | .transportError _ =>
    .typeError "Cannot read property statusCode of undefined"

end Garden

namespace Garden

/-! ## Theorems for the jib, delete and enterprise claims -/

/-- C8: `detectProjectType` returns `gradle` when any gradle marker resolved
against the module path is among the module version files (even if maven
markers are also present, since the gradle scan runs first); otherwise
returns `maven` when any maven marker is present; otherwise throws a
`ConfigurationError` naming the module. -/
theorem detectProjectType_spec (m : JibModule) :
    ((∃ f ∈ gradlePaths, (resolvePath m.path f) ∈ m.versionFiles) →
      detectProjectType m = .ok .gradle) ∧
    ((¬ ∃ f ∈ gradlePaths, (resolvePath m.path f) ∈ m.versionFiles) →
      (∃ f ∈ mavenPaths, (resolvePath m.path f) ∈ m.versionFiles) →
      detectProjectType m = .ok .maven) ∧
    ((¬ ∃ f ∈ gradlePaths, (resolvePath m.path f) ∈ m.versionFiles) →
      (¬ ∃ f ∈ mavenPaths, (resolvePath m.path f) ∈ m.versionFiles) →
      detectProjectType m =
        .error ⟨"Could not detect a gradle or maven project to build module " ++ m.name⟩) := by
  constructor
  · intro hg
    obtain ⟨f, hf, hmem⟩ := hg
    have : (gradlePaths.find? (fun f => m.versionFiles.contains (resolvePath m.path f))).isSome := by
      rw [List.find?_isSome]
      exact ⟨f, hf, by simpa using hmem⟩
    unfold detectProjectType
    obtain ⟨v, hv⟩ := Option.isSome_iff_exists.mp this
    rw [hv]
  · constructor
    · intro hng hm
      have hgnone : gradlePaths.find? (fun f => m.versionFiles.contains (resolvePath m.path f)) = none := by
        rw [List.find?_eq_none]
        intro f hf
        intro hmem
        exact hng ⟨f, hf, by simpa using hmem⟩
      obtain ⟨f, hf, hmem⟩ := hm
      have : (mavenPaths.find? (fun f => m.versionFiles.contains (resolvePath m.path f))).isSome := by
        rw [List.find?_isSome]
        exact ⟨f, hf, by simpa using hmem⟩
      unfold detectProjectType
      rw [hgnone]
      obtain ⟨v, hv⟩ := Option.isSome_iff_exists.mp this
      rw [hv]
    · intro hng hnm
      have hgnone : gradlePaths.find? (fun f => m.versionFiles.contains (resolvePath m.path f)) = none := by
        rw [List.find?_eq_none]
        intro f hf
        intro hmem
        exact hng ⟨f, hf, by simpa using hmem⟩
      have hmnone : mavenPaths.find? (fun f => m.versionFiles.contains (resolvePath m.path f)) = none := by
        rw [List.find?_eq_none]
        intro f hf
        intro hmem
        exact hnm ⟨f, hf, by simpa using hmem⟩
      unfold detectProjectType
      rw [hgnone, hmnone]

end Garden

namespace Garden

/-- Witness for C8: a module with `build.gradle` among its version files is
detected as a gradle project. -/
theorem detectProjectType_spec_witness :
    (∃ f ∈ gradlePaths, resolvePath "/app" f ∈ ["/app/build.gradle"]) ∧
    detectProjectType ⟨"mod-x", "/app", ["/app/build.gradle"]⟩ = .ok .gradle :=
  ⟨by decide, (detectProjectType_spec ⟨"mod-x", "/app", ["/app/build.gradle"]⟩).1 (by decide)⟩

/-- C9: `DeleteServiceCommand.action` with zero matched services returns an
empty result map and constructs no `DeleteServiceTask`; with at least one
matched service it constructs exactly one task per service and returns the
deleted-service statuses derived from processing those tasks. -/
theorem deleteServiceAction_spec (σ τ : Type)
    (processTasks : List DeleteServiceTask → τ)
    (deletedStatuses : τ → List (String × σ))
    (services : List GService) :
    (services = [] →
      (deleteServiceAction σ τ processTasks deletedStatuses services).result = [] ∧
      (deleteServiceAction σ τ processTasks deletedStatuses services).tasks = []) ∧
    (services ≠ [] →
      (deleteServiceAction σ τ processTasks deletedStatuses services).tasks =
        services.map (fun s => ⟨s.name⟩) ∧
      (deleteServiceAction σ τ processTasks deletedStatuses services).tasks.length =
        services.length ∧
      (deleteServiceAction σ τ processTasks deletedStatuses services).result =
        deletedStatuses (processTasks (services.map (fun s => ⟨s.name⟩)))) := by
  constructor
  · intro h
    subst h
    simp [deleteServiceAction]
  · intro h
    have hlen : services.length ≠ 0 := by
      simpa [List.length_eq_zero] using h
    simp [deleteServiceAction, hlen]

/-- Witness for C9: one matched service yields exactly one task. -/
theorem deleteServiceAction_spec_witness :
    ([(⟨"svc"⟩ : GService)] ≠ []) ∧
    (deleteServiceAction Nat (List DeleteServiceTask) id
        (fun ts => ts.map (fun t => (t.serviceName, 0))) [⟨"svc"⟩]).tasks.length = 1 :=
  ⟨by decide,
    ((deleteServiceAction_spec Nat (List DeleteServiceTask) id
        (fun ts => ts.map (fun t => (t.serviceName, 0))) [⟨"svc"⟩]).2 (by decide)).2.1⟩

/-- Counterexample for C10: a request failure with no HTTP response (a
transport-level error, where `err.response` is `undefined`) makes
`checkClientAuthToken` crash with a `TypeError` from reading `statusCode`
of `undefined`; it does not throw a `RuntimeError` as the claim states. -/
theorem checkClientAuthToken_counterexample :
    checkClientAuthToken (.transportError "connect ECONNREFUSED") =
      .typeError "Cannot read property statusCode of undefined" ∧
    ∀ msg, checkClientAuthToken (.transportError "connect ECONNREFUSED") ≠
      .runtimeError msg := by
  refine ⟨rfl, ?_⟩
  intro msg h
  simp [checkClientAuthToken] at h

/-- C10 (amended): `checkClientAuthToken` returns `true` when the request
succeeds, returns `false` exactly when the request fails with HTTP status
401, and throws a `RuntimeError` for every other request failure that
carries an HTTP response; a failure without an HTTP response crashes with a
`TypeError` (reading `statusCode` of `undefined`). A `false` return still
always means the token was rejected with 401. -/
theorem checkClientAuthToken_spec (o : ReqOutcome) :
    (checkClientAuthToken .success = .ret true) ∧
    (checkClientAuthToken (.httpError 401) = .ret false) ∧
    (∀ c, c ≠ 401 → ∃ msg, checkClientAuthToken (.httpError c) = .runtimeError msg) ∧
    (∀ msg, ∃ tmsg, checkClientAuthToken (.transportError msg) = .typeError tmsg) ∧
    (∀ b, checkClientAuthToken o = .ret b → b = false → o = .httpError 401) := by
  refine ⟨rfl, by simp [checkClientAuthToken], ?_, ?_, ?_⟩
  · intro c hc
    refine ⟨"An error occurred while verifying client auth token with platform", ?_⟩
    simp [checkClientAuthToken, hc]
  · intro msg
    exact ⟨_, rfl⟩
  · intro b hb hbf
    subst hbf
    cases o with
    | success => simp [checkClientAuthToken] at hb
    | httpError c =>
      by_cases hc : c = 401
      · subst hc; rfl
      · simp [checkClientAuthToken, hc] at hb
    | transportError m => simp [checkClientAuthToken] at hb

/-- Witness for C10: a 500 response throws a `RuntimeError`. -/
theorem checkClientAuthToken_spec_witness :
    (500 ≠ 401) ∧ ∃ msg, checkClientAuthToken (.httpError 500) = .runtimeError msg :=
  ⟨by decide, (checkClientAuthToken_spec .success).2.2.1 500 (by decide)⟩

end Garden

namespace Garden

/-! ## Task Graph scheduler, small-step model (spec sections 4.1, 4.2, 5)

The scheduler source is not among the sampled files; the following
operational model is built from the spec text: per-key task states
(`Pending -> Running | CacheHit -> Succeeded | Failed | Skipped`), a list of
in-flight executions, watch-mode batch submission with global in-flight
de-duplication by key, admission only once all dependencies are terminal,
and skip propagation from failed or skipped dependencies. -/

/-- Modelled from the spec: the per-task state machine of section 4.1
(the scheduler source is missing from the sampled files). `notSub` means
the key has not been admitted by any batch yet. -/
inductive TState
  | notSub
  | pending
  | running
  | succeeded
  | failed
  | skipped
deriving DecidableEq, Repr

/-- Terminal states per the spec: Succeeded, Failed, Skipped. -/
def TState.isTerminal : TState → Bool
  | .succeeded => true
  | .failed => true
  | .skipped => true
  | _ => false

/-- States that propagate skipping to dependents (a failed dependency, or a
dependency itself skipped because of an upstream failure). -/
def TState.isUpstreamFailure : TState → Bool
  | .failed => true
  | .skipped => true
  | _ => false

/-- Modelled from the spec: the mutable task-state table of the scheduler
(the scheduler source is missing from the sampled files). `status` is the
per-key state, `running` the list of in-flight executions (one entry per
execution), `startT` and `endT` the start and terminal timestamps, and
`clock` a logical clock advanced by every step. -/
structure SchedState where
  status : String → TState
  running : List String
  startT : String → Option Nat
  endT : String → Option Nat
  clock : Nat

/-- The scheduler before any batch is submitted. -/
def initState : SchedState :=
  { status := fun _ => .notSub
    running := []
    startT := fun _ => none
    endT := fun _ => none
    clock := 0 }

/-- Modelled from the spec: submitting a watch-mode batch of task keys.
Keys already tracked (pending, in flight or terminal) are de-duplicated
globally by key and left untouched; only unseen keys become pending. -/
def submitBatch (ks : List String) (s : SchedState) : SchedState :=
  { s with
    status := fun k => if k ∈ ks ∧ s.status k = .notSub then .pending else s.status k
    clock := s.clock + 1 }

/-- Modelled from the spec: a worker picks up an eligible task; its key
enters the in-flight list and its start timestamp is recorded. -/
def startTask (k : String) (s : SchedState) : SchedState :=
  { status := fun k' => if k' = k then .running else s.status k'
    running := k :: s.running
    startT := fun k' => if k' = k then some s.clock else s.startT k'
    endT := s.endT
    clock := s.clock + 1 }

/-- Modelled from the spec: an in-flight execution completes with success
or failure; its key leaves the in-flight list and its terminal timestamp is
recorded. -/
def finishTask (k : String) (ok : Bool) (s : SchedState) : SchedState :=
  { status := fun k' => if k' = k then (if ok then .succeeded else .failed) else s.status k'
    running := s.running.erase k
    startT := s.startT
    endT := fun k' => if k' = k then some s.clock else s.endT k'
    clock := s.clock + 1 }

/-- Modelled from the spec: a pending task with a failed or skipped
dependency is marked Skipped without ever executing (no worker slot, no
start timestamp). -/
def skipTask (k : String) (s : SchedState) : SchedState :=
  { status := fun k' => if k' = k then .skipped else s.status k'
    running := s.running
    startT := s.startT
    endT := fun k' => if k' = k then some s.clock else s.endT k'
    clock := s.clock + 1 }

/-- Modelled from the spec: a pending task whose dependencies are all
terminal completes directly from the result cache, without entering the
in-flight list or recording a start timestamp. -/
def cacheHitTask (k : String) (s : SchedState) : SchedState :=
  { status := fun k' => if k' = k then .succeeded else s.status k'
    running := s.running
    startT := s.startT
    endT := fun k' => if k' = k then some s.clock else s.endT k'
    clock := s.clock + 1 }

/-- Modelled from the spec: one scheduler step, over a fixed dependency
function `g` (the config graph is immutable during execution). Batches may
be submitted at any time, concurrently with in-flight work. A task may
start or cache-hit only from `pending` and only once all its dependencies
are terminal; it may be skipped only from `pending` when some dependency
failed or was skipped; an execution finishes only while in flight. -/
inductive Step (g : String → List String) : SchedState → SchedState → Prop
  | submit (ks : List String) (s : SchedState) :
      Step g s (submitBatch ks s)
  | start (k : String) (s : SchedState)
      (hp : s.status k = .pending)
      (hd : ∀ d ∈ g k, (s.status d).isTerminal = true) :
      Step g s (startTask k s)
  | finish (k : String) (ok : Bool) (s : SchedState)
      (hr : s.status k = .running) :
      Step g s (finishTask k ok s)
  | skip (k : String) (s : SchedState)
      (hp : s.status k = .pending)
      (hd : ∃ d ∈ g k, (s.status d).isUpstreamFailure = true) :
      Step g s (skipTask k s)
  | cacheHit (k : String) (s : SchedState)
      (hp : s.status k = .pending)
      (hd : ∀ d ∈ g k, (s.status d).isTerminal = true) :
      Step g s (cacheHitTask k s)

/-- States reachable from the initial scheduler state. -/
inductive Reachable (g : String → List String) : SchedState → Prop
  | init : Reachable g initState
  | step {s s' : SchedState} : Reachable g s → Step g s s' → Reachable g s'

/-- The scheduler invariant: terminal status and terminal timestamp agree;
timestamps lie strictly below the clock; a started task saw every
dependency reach its terminal timestamp no later than the start timestamp;
the in-flight list has no duplicate key and mirrors the `running` status. -/
structure SchedInv (g : String → List String) (s : SchedState) : Prop where
  term_end : ∀ k, (s.status k).isTerminal = (s.endT k).isSome
  end_lt : ∀ k t, s.endT k = some t → t < s.clock
  start_lt : ∀ k t, s.startT k = some t → t < s.clock
  dep_done : ∀ a ta, s.startT a = some ta → ∀ b ∈ g a, ∃ tb, s.endT b = some tb ∧ tb ≤ ta
  run_nodup : s.running.Nodup
  run_status : ∀ k, k ∈ s.running ↔ s.status k = .running

end Garden

namespace Garden

/-- The initial scheduler state satisfies the invariant. -/
theorem schedInv_init (g : String → List String) : SchedInv g initState := by
  refine ⟨?_, ?_, ?_, ?_, ?_, ?_⟩ <;> simp [initState, TState.isTerminal]

/-- Submitting a batch preserves the invariant: already-tracked keys are
de-duplicated and untouched, unseen keys merely become pending. -/
theorem schedInv_submit (g : String → List String) (ks : List String) (s : SchedState)
    (h : SchedInv g s) : SchedInv g (submitBatch ks s) := by
  obtain ⟨hte, hel, hsl, hdd, hrn, hrs⟩ := h
  refine ⟨?_, ?_, ?_, ?_, ?_, ?_⟩
  · intro k
    simp only [submitBatch]
    by_cases hc : k ∈ ks ∧ s.status k = .notSub
    · rw [if_pos hc]
      have := hte k
      rw [hc.2] at this
      exact this
    · rw [if_neg hc]
      exact hte k
  · intro k t hkt
    exact Nat.lt_succ_of_lt (hel k t hkt)
  · intro k t hkt
    exact Nat.lt_succ_of_lt (hsl k t hkt)
  · intro a ta hta b hb
    exact hdd a ta hta b hb
  · exact hrn
  · intro k
    simp only [submitBatch]
    by_cases hc : k ∈ ks ∧ s.status k = .notSub
    · rw [if_pos hc]
      constructor
      · intro hmem
        rw [(hrs k).mp hmem] at hc
        exact absurd hc.2 (by simp)
      · intro hpend
        cases hpend
    · rw [if_neg hc]
      exact hrs k

/-- Starting an eligible task preserves the invariant. -/
theorem schedInv_start (g : String → List String) (k : String) (s : SchedState)
    (hp : s.status k = .pending)
    (hd : ∀ d ∈ g k, (s.status d).isTerminal = true)
    (h : SchedInv g s) : SchedInv g (startTask k s) := by
  obtain ⟨hte, hel, hsl, hdd, hrn, hrs⟩ := h
  have hknotrun : k ∉ s.running := by
    intro hmem
    rw [(hrs k).mp hmem] at hp
    cases hp
  refine ⟨?_, ?_, ?_, ?_, ?_, ?_⟩
  · intro k'
    simp only [startTask]
    by_cases hk : k' = k
    · subst hk
      rw [if_pos rfl]
      have := hte k'
      rw [hp] at this
      exact this
    · rw [if_neg hk]
      exact hte k'
  · intro k' t hkt
    exact Nat.lt_succ_of_lt (hel k' t hkt)
  · intro k' t hkt
    simp only [startTask] at hkt
    by_cases hk : k' = k
    · rw [if_pos hk] at hkt
      cases hkt
      exact Nat.lt_succ_self _
    · rw [if_neg hk] at hkt
      exact Nat.lt_succ_of_lt (hsl k' t hkt)
  · intro a ta hta b hb
    simp only [startTask] at hta ⊢
    by_cases hk : a = k
    · rw [if_pos hk] at hta
      cases hta
      subst hk
      have hterm := hd b hb
      have := hte b
      rw [hterm] at this
      obtain ⟨tb, htb⟩ := Option.isSome_iff_exists.mp this.symm
      exact ⟨tb, htb, Nat.le_of_lt (hel b tb htb)⟩
    · rw [if_neg hk] at hta
      exact hdd a ta hta b hb
  · simp only [startTask]
    exact List.nodup_cons.mpr ⟨hknotrun, hrn⟩
  · intro k'
    simp only [startTask]
    by_cases hk : k' = k
    · subst hk
      simp
    · rw [if_neg hk]
      simp only [List.mem_cons]
      constructor
      · intro hmem
        rcases hmem with h1 | h2
        · exact absurd h1 hk
        · exact (hrs k').mp h2
      · intro hrun
        exact Or.inr ((hrs k').mpr hrun)

/-- Finishing an in-flight task preserves the invariant. -/
theorem schedInv_finish (g : String → List String) (k : String) (ok : Bool) (s : SchedState)
    (hr : s.status k = .running)
    (h : SchedInv g s) : SchedInv g (finishTask k ok s) := by
  obtain ⟨hte, hel, hsl, hdd, hrn, hrs⟩ := h
  have hendk : s.endT k = none := by
    have := hte k
    rw [hr] at this
    cases he : s.endT k
    · rfl
    · rw [he] at this
      simp [TState.isTerminal] at this
  refine ⟨?_, ?_, ?_, ?_, ?_, ?_⟩
  · intro k'
    simp only [finishTask]
    by_cases hk : k' = k
    · subst hk
      rw [if_pos rfl, if_pos rfl]
      cases ok <;> simp [TState.isTerminal]
    · rw [if_neg hk, if_neg hk]
      exact hte k'
  · intro k' t hkt
    simp only [finishTask] at hkt
    by_cases hk : k' = k
    · rw [if_pos hk] at hkt
      cases hkt
      exact Nat.lt_succ_self _
    · rw [if_neg hk] at hkt
      exact Nat.lt_succ_of_lt (hel k' t hkt)
  · intro k' t hkt
    exact Nat.lt_succ_of_lt (hsl k' t hkt)
  · intro a ta hta b hb
    simp only [finishTask] at hta ⊢
    obtain ⟨tb, htb, hle⟩ := hdd a ta hta b hb
    by_cases hk : b = k
    · subst hk
      rw [hendk] at htb
      cases htb
    · rw [if_neg hk]
      exact ⟨tb, htb, hle⟩
  · simp only [finishTask]
    exact hrn.erase k
  · intro k'
    simp only [finishTask]
    by_cases hk : k' = k
    · subst hk
      rw [if_pos rfl]
      constructor
      · intro hmem
        exact absurd rfl ((hrn.mem_erase_iff.mp hmem).1)
      · intro habs
        cases ok <;> cases habs
    · rw [if_neg hk]
      rw [hrn.mem_erase_iff]
      constructor
      · intro hmem
        exact (hrs k').mp hmem.2
      · intro hrun
        exact ⟨hk, (hrs k').mpr hrun⟩

/-- Skipping a pending task with a failed or skipped dependency preserves
the invariant. -/
theorem schedInv_skip (g : String → List String) (k : String) (s : SchedState)
    (hp : s.status k = .pending)
    (h : SchedInv g s) : SchedInv g (skipTask k s) := by
  obtain ⟨hte, hel, hsl, hdd, hrn, hrs⟩ := h
  have hendk : s.endT k = none := by
    have := hte k
    rw [hp] at this
    cases he : s.endT k
    · rfl
    · rw [he] at this
      simp [TState.isTerminal] at this
  refine ⟨?_, ?_, ?_, ?_, ?_, ?_⟩
  · intro k'
    simp only [skipTask]
    by_cases hk : k' = k
    · subst hk
      rw [if_pos rfl, if_pos rfl]
      simp [TState.isTerminal]
    · rw [if_neg hk, if_neg hk]
      exact hte k'
  · intro k' t hkt
    simp only [skipTask] at hkt
    by_cases hk : k' = k
    · rw [if_pos hk] at hkt
      cases hkt
      exact Nat.lt_succ_self _
    · rw [if_neg hk] at hkt
      exact Nat.lt_succ_of_lt (hel k' t hkt)
  · intro k' t hkt
    exact Nat.lt_succ_of_lt (hsl k' t hkt)
  · intro a ta hta b hb
    simp only [skipTask] at hta ⊢
    obtain ⟨tb, htb, hle⟩ := hdd a ta hta b hb
    by_cases hk : b = k
    · subst hk
      rw [hendk] at htb
      cases htb
    · rw [if_neg hk]
      exact ⟨tb, htb, hle⟩
  · exact hrn
  · intro k'
    simp only [skipTask]
    by_cases hk : k' = k
    · subst hk
      rw [if_pos rfl]
      constructor
      · intro hmem
        rw [(hrs k').mp hmem] at hp
        cases hp
      · intro habs
        cases habs
    · rw [if_neg hk]
      exact hrs k'

/-- Completing a pending task from the result cache preserves the
invariant. -/
theorem schedInv_cacheHit (g : String → List String) (k : String) (s : SchedState)
    (hp : s.status k = .pending)
    (h : SchedInv g s) : SchedInv g (cacheHitTask k s) := by
  obtain ⟨hte, hel, hsl, hdd, hrn, hrs⟩ := h
  have hendk : s.endT k = none := by
    have := hte k
    rw [hp] at this
    cases he : s.endT k
    · rfl
    · rw [he] at this
      simp [TState.isTerminal] at this
  refine ⟨?_, ?_, ?_, ?_, ?_, ?_⟩
  · intro k'
    simp only [cacheHitTask]
    by_cases hk : k' = k
    · subst hk
      rw [if_pos rfl, if_pos rfl]
      simp [TState.isTerminal]
    · rw [if_neg hk, if_neg hk]
      exact hte k'
  · intro k' t hkt
    simp only [cacheHitTask] at hkt
    by_cases hk : k' = k
    · rw [if_pos hk] at hkt
      cases hkt
      exact Nat.lt_succ_self _
    · rw [if_neg hk] at hkt
      exact Nat.lt_succ_of_lt (hel k' t hkt)
  · intro k' t hkt
    exact Nat.lt_succ_of_lt (hsl k' t hkt)
  · intro a ta hta b hb
    simp only [cacheHitTask] at hta ⊢
    obtain ⟨tb, htb, hle⟩ := hdd a ta hta b hb
    by_cases hk : b = k
    · subst hk
      rw [hendk] at htb
      cases htb
    · rw [if_neg hk]
      exact ⟨tb, htb, hle⟩
  · exact hrn
  · intro k'
    simp only [cacheHitTask]
    by_cases hk : k' = k
    · subst hk
      rw [if_pos rfl]
      constructor
      · intro hmem
        rw [(hrs k').mp hmem] at hp
        cases hp
      · intro habs
        cases habs
    · rw [if_neg hk]
      exact hrs k'

/-- Every scheduler step preserves the invariant. -/
theorem schedInv_step (g : String → List String) (s s' : SchedState)
    (h : SchedInv g s) (hstep : Step g s s') : SchedInv g s' := by
  cases hstep with
  | submit ks s => exact schedInv_submit g ks s h
  | start k s hp hd => exact schedInv_start g k s hp hd h
  | finish k ok s hr => exact schedInv_finish g k ok s hr h
  | skip k s hp hd => exact schedInv_skip g k s hp h
  | cacheHit k s hp hd => exact schedInv_cacheHit g k s hp h

/-- Every reachable scheduler state satisfies the invariant. -/
theorem reachable_schedInv (g : String → List String) (s : SchedState)
    (h : Reachable g s) : SchedInv g s := by
  induction h with
  | init => exact schedInv_init g
  | step _ hstep ih => exact schedInv_step g _ _ ih hstep

end Garden

namespace Garden

/-- A two-task dependency graph for the concrete trace: task a depends on
task b. -/
def watchGraph : String → List String := fun k => if k = "a" then ["b"] else []

/-- A concrete scheduler trace: submit the batch with keys a and b, start
and finish b, then start a. -/
def demoTrace : SchedState :=
  startTask "a" (finishTask "b" true (startTask "b" (submitBatch ["a", "b"] initState)))

/-- The concrete trace state is reachable. -/
theorem demoTrace_reachable : Reachable watchGraph demoTrace :=
  Reachable.step
    (Reachable.step
      (Reachable.step
        (Reachable.step Reachable.init (Step.submit ["a", "b"] initState))
        (Step.start "b" _ (by decide) (by decide)))
      (Step.finish "b" true _ (by decide)))
    (Step.start "a" _ (by decide) (by decide))

/-- C2: in every reachable scheduler state, at most one execution per task
key is in flight: the in-flight list never holds two entries with the same
key, and an entry is in flight exactly when that key is in the Running
state. This holds across arbitrary interleavings of batch submissions
(overlapping watch-mode batches included), because `submitBatch`
de-duplicates globally by key and `Step.start` admits a key only from the
Pending state. -/
theorem scheduler_unique_inflight (g : String → List String) (s : SchedState)
    (h : Reachable g s) :
    s.running.Nodup ∧ ∀ k, k ∈ s.running ↔ s.status k = .running := by
  have hinv := reachable_schedInv g s h
  exact ⟨hinv.run_nodup, hinv.run_status⟩

/-- Witness for C2: in the concrete trace the in-flight list is exactly
the single key a, and it has no duplicates. -/
theorem scheduler_unique_inflight_witness :
    demoTrace.running = ["a"] ∧ demoTrace.running.Nodup :=
  ⟨by decide, (scheduler_unique_inflight watchGraph demoTrace demoTrace_reachable).1⟩

/-- C3: in every reachable scheduler state, whenever a task a that depends
on a task b has started executing (its start timestamp is recorded), b has
already reached a terminal state and its terminal timestamp is at most the
start timestamp of a. -/
theorem scheduler_dep_before_start (g : String → List String) (s : SchedState)
    (h : Reachable g s) (a b : String) (hb : b ∈ g a) (ta : Nat)
    (hta : s.startT a = some ta) :
    ∃ tb, s.endT b = some tb ∧ tb ≤ ta ∧ (s.status b).isTerminal = true := by
  have hinv := reachable_schedInv g s h
  obtain ⟨tb, htb, hle⟩ := hinv.dep_done a ta hta b hb
  refine ⟨tb, htb, hle, ?_⟩
  rw [hinv.term_end b, htb]
  rfl

/-- Witness for C3: in the concrete trace, a started at time 3 and its
dependency b reached its terminal state at time 2. -/
theorem scheduler_dep_before_start_witness :
    demoTrace.startT "a" = some 3 ∧ "b" ∈ watchGraph "a" ∧
    ∃ tb, demoTrace.endT "b" = some tb ∧ tb ≤ 3 ∧
      (demoTrace.status "b").isTerminal = true :=
  ⟨by decide, by decide,
    scheduler_dep_before_start watchGraph demoTrace demoTrace_reachable "a" "b"
      (by decide) 3 (by decide)⟩

end Garden

namespace Garden

/-! ## Task Graph, functional model (spec section 4.1)

The scheduler source is missing from the sampled files; `process` below is
modelled from the algorithm of spec section 4.1: dependency closure over
the config graph, de-duplication by key with force-OR merging, cycle
detection during resolution (before any execution), then execution in a
topological order with cache short-circuit and failure propagation. -/

/-- Modelled from the spec: a task of section 3 (the scheduler source is
missing from the sampled files): stable `key`, content `version`, `force`
flag bypassing the cache, and dependency keys resolved via the config
graph. -/
structure GTask where
  key : String
  version : Nat
  force : Bool
  deps : List String
deriving DecidableEq, Repr

/-- Fuel-driven de-duplication by key: the first occurrence of a key is
kept (one node per key; dependents reference keys, so they all point at the
kept node), with `force` the disjunction of the `force` flags of every
task carrying that key. The fuel is the list length, always sufficient. -/
def dedupTasksAux : Nat → List GTask → List GTask
  | _, [] => []
  | 0, _ :: _ => []
  | fuel + 1, t :: rest =>
    { t with force := t.force || rest.any (fun u => u.key == t.key && u.force) } ::
      dedupTasksAux fuel (rest.filter (fun u => u.key != t.key))

/-- Modelled from the spec: de-duplication step 2 of the `process`
algorithm (the scheduler source is missing from the sampled files). -/
def dedupTasks (l : List GTask) : List GTask := dedupTasksAux l.length l

/-- Any-over-filter collapses when the scanned property forces the filter
property. -/
theorem any_filter_of_imp (l : List GTask) (p q : GTask → Bool)
    (h : ∀ u, p u = true → q u = true) : (l.filter q).any p = l.any p := by
  induction l with
  | nil => rfl
  | cons x xs ih =>
    by_cases hq : q x = true
    · simp [List.filter_cons, hq, ih]
    · have hp : p x = false := by
        cases hpx : p x
        · rfl
        · exact absurd (h x hpx) hq
      simp [List.filter_cons, hq, hp, ih]

/-- Key membership is preserved by de-duplication. -/
theorem dedupTasksAux_keys_mem (fuel : Nat) :
    ∀ (l : List GTask), l.length ≤ fuel →
      ∀ k, (k ∈ (dedupTasksAux fuel l).map (·.key) ↔ k ∈ l.map (·.key)) := by
  induction fuel with
  | zero =>
    intro l hl k
    have hl0 : l = [] := List.eq_nil_of_length_eq_zero (Nat.le_zero.mp hl)
    subst hl0
    rfl
  | succ fuel ih =>
    intro l hl k
    cases l with
    | nil => rfl
    | cons t rest =>
      simp only [dedupTasksAux, List.map_cons, List.mem_cons]
      have hlen : (rest.filter (fun u => u.key != t.key)).length ≤ fuel := by
        calc (rest.filter (fun u => u.key != t.key)).length ≤ rest.length :=
              List.length_filter_le _ _
        _ ≤ fuel := Nat.le_of_succ_le_succ hl
      rw [ih _ hlen k]
      constructor
      · rintro (h1 | h2)
        · exact Or.inl h1
        · simp only [List.mem_map, List.mem_filter] at h2
          obtain ⟨u, ⟨hu, _⟩, hk⟩ := h2
          exact Or.inr (List.mem_map.mpr ⟨u, hu, hk⟩)
      · rintro (h1 | h2)
        · exact Or.inl h1
        · by_cases hkt : k = t.key
          · exact Or.inl hkt
          · simp only [List.mem_map] at h2
            obtain ⟨u, hu, hk⟩ := h2
            refine Or.inr (List.mem_map.mpr ⟨u, List.mem_filter.mpr ⟨hu, ?_⟩, hk⟩)
            simp only [bne_iff_ne, ne_eq]
            rw [hk]
            exact hkt

/-- De-duplication produces pairwise distinct keys. -/
theorem dedupTasksAux_keys_nodup (fuel : Nat) :
    ∀ (l : List GTask), l.length ≤ fuel →
      ((dedupTasksAux fuel l).map (·.key)).Nodup := by
  induction fuel with
  | zero =>
    intro l hl
    have hl0 : l = [] := List.eq_nil_of_length_eq_zero (Nat.le_zero.mp hl)
    subst hl0
    exact List.nodup_nil
  | succ fuel ih =>
    intro l hl
    cases l with
    | nil => exact List.nodup_nil
    | cons t rest =>
      simp only [dedupTasksAux, List.map_cons]
      have hlen : (rest.filter (fun u => u.key != t.key)).length ≤ fuel := by
        calc (rest.filter (fun u => u.key != t.key)).length ≤ rest.length :=
              List.length_filter_le _ _
        _ ≤ fuel := Nat.le_of_succ_le_succ hl
      refine List.nodup_cons.mpr ⟨?_, ih _ hlen⟩
      rw [dedupTasksAux_keys_mem fuel _ hlen]
      simp only [List.mem_map, List.mem_filter, not_exists, not_and]
      rintro u ⟨hu, hne⟩ hk
      simp only [bne_iff_ne, ne_eq] at hne
      exact hne hk

/-- The force flag of every kept task is the disjunction of the force
flags of all submitted tasks with the same key. -/
theorem dedupTasksAux_force (fuel : Nat) :
    ∀ (l : List GTask), l.length ≤ fuel →
      ∀ t ∈ dedupTasksAux fuel l,
        t.force = l.any (fun u => u.key == t.key && u.force) := by
  induction fuel with
  | zero =>
    intro l hl
    have hl0 : l = [] := List.eq_nil_of_length_eq_zero (Nat.le_zero.mp hl)
    subst hl0
    intro t ht
    cases ht
  | succ fuel ih =>
    intro l hl t ht
    cases l with
    | nil => cases ht
    | cons hd rest =>
      simp only [dedupTasksAux, List.mem_cons] at ht
      have hlen : (rest.filter (fun u => u.key != hd.key)).length ≤ fuel := by
        calc (rest.filter (fun u => u.key != hd.key)).length ≤ rest.length :=
              List.length_filter_le _ _
        _ ≤ fuel := Nat.le_of_succ_le_succ hl
      rcases ht with ht | ht
      · subst ht
        simp only [List.any_cons]
        simp
      · have hkey : t.key ∈ (rest.filter (fun u => u.key != hd.key)).map (·.key) := by
          rw [← dedupTasksAux_keys_mem fuel _ hlen]
          exact List.mem_map.mpr ⟨t, ht, rfl⟩
        have hne : t.key ≠ hd.key := by
          simp only [List.mem_map, List.mem_filter, bne_iff_ne, ne_eq] at hkey
          obtain ⟨u, ⟨_, hne⟩, hk⟩ := hkey
          rw [← hk]
          exact hne
        have := ih _ hlen t ht
        rw [this]
        simp only [List.any_cons]
        have hhd : (hd.key == t.key && hd.force) = false := by
          have : (hd.key == t.key) = false := by
            simp only [beq_eq_false_iff_ne, ne_eq]
            exact fun h => hne h.symm
          rw [this]
          rfl
        rw [hhd]
        rw [any_filter_of_imp rest _ _ ?_]
        · simp
        · intro u hu
          simp only [Bool.and_eq_true, beq_iff_eq] at hu
          simp only [bne_iff_ne, ne_eq]
          rw [hu.1]
          exact hne

/-- The de-duplicated universe has pairwise distinct keys. -/
theorem dedupTasks_keys_nodup (l : List GTask) : ((dedupTasks l).map (·.key)).Nodup :=
  dedupTasksAux_keys_nodup l.length l (Nat.le_refl _)

/-- C7: within one graph execution, de-duplication keeps a single node per
key (the kept keys are pairwise distinct yet cover exactly the submitted
keys, and dependents reference tasks by key, so they all point at the kept
node), and the force flag of the kept task is the disjunction of the force
flags of all duplicates with that key: any true force wins. -/
theorem dedupTasks_spec (l : List GTask) :
    ((dedupTasks l).map (·.key)).Nodup ∧
    (∀ k, k ∈ (dedupTasks l).map (·.key) ↔ k ∈ l.map (·.key)) ∧
    (∀ t ∈ dedupTasks l, t.force = l.any (fun u => u.key == t.key && u.force)) :=
  ⟨dedupTasksAux_keys_nodup l.length l (Nat.le_refl _),
   fun k => dedupTasksAux_keys_mem l.length l (Nat.le_refl _) k,
   dedupTasksAux_force l.length l (Nat.le_refl _)⟩

/-- Witness for C7: two duplicate submissions with force false and true
merge into a single task with force true. -/
theorem dedupTasks_spec_witness :
    ((⟨"k", 1, true, []⟩ : GTask) ∈ dedupTasks [⟨"k", 1, false, []⟩, ⟨"k", 1, true, []⟩]) ∧
    (⟨"k", 1, true, []⟩ : GTask).force =
      [(⟨"k", 1, false, []⟩ : GTask), ⟨"k", 1, true, []⟩].any
        (fun u => u.key == (⟨"k", 1, true, []⟩ : GTask).key && u.force) :=
  ⟨by decide,
    (dedupTasks_spec [⟨"k", 1, false, []⟩, ⟨"k", 1, true, []⟩]).2.2 _ (by decide)⟩

end Garden

namespace Garden

/-- Look up the unique task carrying a key (the universe has been
de-duplicated, so the first match is the only one). -/
def findTask (u : List GTask) (k : String) : Option GTask :=
  u.find? (fun t => t.key == k)

/-- The dependency keys of the task carrying a key (empty when the key
does not resolve). -/
def depsOf (u : List GTask) (k : String) : List String :=
  match findTask u k with
  | some t => t.deps
  | none => []

/-- Modelled from the spec: the transitive-dependency relation of step 1
of the `process` algorithm (the scheduler source is missing from the
sampled files): a key is reachable when it is submitted or is a dependency
of a reachable task. -/
inductive Reach (u : List GTask) (init : List String) : String → Prop
  | base {k : String} : k ∈ init → Reach u init k
  | step {k d : String} {t : GTask} :
      Reach u init k → findTask u k = some t → d ∈ t.deps → Reach u init d

/-- Dependency keys of members of `s` that are not yet in `s`, without
duplicates. -/
def newDeps (u : List GTask) (s : List String) : List String :=
  ((s.map (depsOf u)).flatten.filter (fun d => !s.contains d)).dedup

/-- One closure round: extend `s` by the new dependency keys. -/
def cloStep (u : List GTask) (s : List String) : List String := s ++ newDeps u s

/-- Iterated closure rounds. -/
def cloIter (u : List GTask) : Nat → List String → List String
  | 0, s => s
  | n + 1, s => cloIter u n (cloStep u s)

/-- A finite superset of every key the closure can ever reach: the
submitted keys, the universe keys, and every dependency key mentioned in
the universe. -/
def cloBound (u : List GTask) (init : List String) : List String :=
  (init ++ u.map (·.key) ++ (u.map (·.deps)).flatten).dedup

/-- Modelled from the spec: the dependency closure of step 1 of the
`process` algorithm (the scheduler source is missing from the sampled
files): all keys reachable from the submitted keys, computed by iterating
closure rounds until the (always reached) fixpoint. -/
def closure (u : List GTask) (init : List String) : List String :=
  cloIter u (cloBound u init).length init.dedup

theorem subset_cloStep (u : List GTask) (s : List String) : s ⊆ cloStep u s :=
  List.subset_append_left _ _

theorem subset_cloIter (u : List GTask) (n : Nat) (s : List String) :
    s ⊆ cloIter u n s := by
  induction n generalizing s with
  | zero => exact fun x h => h
  | succ n ih => exact fun x h => ih (cloStep u s) (subset_cloStep u s h)

theorem cloStep_nodup (u : List GTask) (s : List String) (h : s.Nodup) :
    (cloStep u s).Nodup := by
  refine List.Nodup.append h (List.nodup_dedup _) ?_
  intro a ha hmem
  have := List.mem_dedup.mp hmem
  have := (List.mem_filter.mp this).2
  simp only [Bool.not_eq_true', List.contains_eq_any_beq] at this
  rw [List.any_eq_false] at this
  exact absurd (by simp : (a == a) = true) (this a ha)

theorem newDeps_subset_bound (u : List GTask) (init : List String) (s : List String) :
    newDeps u s ⊆ cloBound u init := by
  intro d hd
  have hmem := List.mem_filter.mp (List.mem_dedup.mp hd)
  obtain ⟨l, hl, hdl⟩ := List.mem_flatten.mp hmem.1
  obtain ⟨k, _, hky⟩ := List.mem_map.mp hl
  subst hky
  unfold depsOf at hdl
  cases hft : findTask u k with
  | none => rw [hft] at hdl; cases hdl
  | some t =>
    rw [hft] at hdl
    have htu : t ∈ u := List.mem_of_find?_eq_some hft
    refine List.mem_dedup.mpr ?_
    refine List.mem_append.mpr (Or.inr ?_)
    exact List.mem_flatten.mpr ⟨t.deps, List.mem_map.mpr ⟨t, htu, rfl⟩, hdl⟩

theorem cloStep_subset_bound (u : List GTask) (init : List String) (s : List String)
    (h : s ⊆ cloBound u init) : cloStep u s ⊆ cloBound u init := by
  intro x hx
  rcases List.mem_append.mp hx with hx | hx
  · exact h hx
  · exact newDeps_subset_bound u init s hx

theorem cloStep_eq_of_newDeps_nil (u : List GTask) (s : List String)
    (h : newDeps u s = []) : cloStep u s = s := by
  unfold cloStep
  rw [h, List.append_nil]

theorem cloIter_eq_of_newDeps_nil (u : List GTask) (n : Nat) (s : List String)
    (h : newDeps u s = []) : cloIter u n s = s := by
  induction n with
  | zero => rfl
  | succ n ih =>
    show cloIter u n (cloStep u s) = s
    rw [cloStep_eq_of_newDeps_nil u s h, ih]

theorem cloStep_length_gt (u : List GTask) (s : List String)
    (h : newDeps u s ≠ []) : s.length < (cloStep u s).length := by
  unfold cloStep
  rw [List.length_append]
  have : 0 < (newDeps u s).length := List.length_pos.mpr h
  omega

/-- With fuel at least the slack between the bound and the current set,
iteration reaches the closure fixpoint. -/
theorem cloIter_fix (u : List GTask) (init : List String) :
    ∀ (n : Nat) (s : List String), s.Nodup → s ⊆ cloBound u init →
      (cloBound u init).length ≤ s.length + n →
      newDeps u (cloIter u n s) = [] := by
  intro n
  induction n with
  | zero =>
    intro s hnd hsub hlen
    show newDeps u s = []
    by_contra hne
    have hgrow := cloStep_length_gt u s hne
    have hnd2 := cloStep_nodup u s hnd
    have hsub2 := cloStep_subset_bound u init s hsub
    have hle : (cloStep u s).length ≤ (cloBound u init).length :=
      (hnd2.subperm hsub2).length_le
    omega
  | succ n ih =>
    intro s hnd hsub hlen
    by_cases hfix : newDeps u s = []
    · show newDeps u (cloIter u n (cloStep u s)) = []
      rw [cloStep_eq_of_newDeps_nil u s hfix, cloIter_eq_of_newDeps_nil u n s hfix]
      exact hfix
    · show newDeps u (cloIter u n (cloStep u s)) = []
      have hgrow := cloStep_length_gt u s hfix
      exact ih (cloStep u s) (cloStep_nodup u s hnd) (cloStep_subset_bound u init s hsub)
        (by omega)

/-- The computed closure is a fixpoint. -/
theorem closure_fix (u : List GTask) (init : List String) :
    newDeps u (closure u init) = [] := by
  apply cloIter_fix u init (cloBound u init).length init.dedup (List.nodup_dedup _)
  · intro x hx
    refine List.mem_dedup.mpr ?_
    refine List.mem_append.mpr (Or.inl ?_)
    exact List.mem_append.mpr (Or.inl (List.mem_dedup.mp hx))
  · omega

/-- A fixpoint set is closed under dependencies. -/
theorem closed_of_newDeps_nil (u : List GTask) (s : List String)
    (h : newDeps u s = []) :
    ∀ k ∈ s, ∀ d ∈ depsOf u k, d ∈ s := by
  intro k hk d hd
  by_contra hds
  have hjoin : d ∈ (s.map (depsOf u)).flatten :=
    List.mem_flatten.mpr ⟨depsOf u k, List.mem_map.mpr ⟨k, hk, rfl⟩, hd⟩
  have hfil : d ∈ (s.map (depsOf u)).flatten.filter (fun x => !s.contains x) := by
    refine List.mem_filter.mpr ⟨hjoin, ?_⟩
    simp only [Bool.not_eq_true', List.contains_eq_any_beq, List.any_eq_false]
    intro a ha
    have hne : d ≠ a := fun he => hds (he ▸ ha)
    simpa using hne
  have : d ∈ newDeps u s := List.mem_dedup.mpr hfil
  rw [h] at this
  cases this

/-- The closure is closed under dependencies. -/
theorem closure_closed (u : List GTask) (init : List String) :
    ∀ k ∈ closure u init, ∀ d ∈ depsOf u k, d ∈ closure u init :=
  closed_of_newDeps_nil u _ (closure_fix u init)

/-- Completeness: every reachable key is in the computed closure. -/
theorem closure_complete (u : List GTask) (init : List String) (k : String)
    (h : Reach u init k) : k ∈ closure u init := by
  induction h with
  | base hk =>
    exact subset_cloIter u _ _ (List.mem_dedup.mpr hk)
  | step _ hft hd ih =>
    refine closure_closed u init _ ih _ ?_
    unfold depsOf
    rw [hft]
    exact hd

/-- Soundness of the rounds: the closure only contains reachable keys. -/
theorem cloIter_sound (u : List GTask) (init : List String) :
    ∀ (n : Nat) (s : List String), (∀ x ∈ s, Reach u init x) →
      ∀ x ∈ cloIter u n s, Reach u init x := by
  intro n
  induction n with
  | zero => exact fun s h => h
  | succ n ih =>
    intro s h
    refine ih (cloStep u s) ?_
    intro x hx
    rcases List.mem_append.mp hx with hx | hx
    · exact h x hx
    · have hmem := List.mem_filter.mp (List.mem_dedup.mp hx)
      obtain ⟨l, hl, hxl⟩ := List.mem_flatten.mp hmem.1
      obtain ⟨k, hk, hky⟩ := List.mem_map.mp hl
      subst hky
      unfold depsOf at hxl
      cases hft : findTask u k with
      | none => rw [hft] at hxl; cases hxl
      | some t =>
        rw [hft] at hxl
        exact Reach.step (h k hk) hft hxl

/-- Soundness: every key in the computed closure is reachable. -/
theorem closure_sound (u : List GTask) (init : List String) (k : String)
    (h : k ∈ closure u init) : Reach u init k := by
  refine cloIter_sound u init _ _ ?_ k h
  intro x hx
  exact Reach.base (List.mem_dedup.mp hx)

theorem cloIter_nodup (u : List GTask) :
    ∀ (n : Nat) (s : List String), s.Nodup → (cloIter u n s).Nodup := by
  intro n
  induction n with
  | zero => exact fun s h => h
  | succ n ih => exact fun s h => ih (cloStep u s) (cloStep_nodup u s h)

/-- The closure has no duplicate keys. -/
theorem closure_nodup (u : List GTask) (init : List String) :
    (closure u init).Nodup :=
  cloIter_nodup u _ _ (List.nodup_dedup _)

end Garden

namespace Garden

/-- Modelled from the spec: the error taxonomy of section 7 relevant to
graph resolution (the scheduler source is missing from the sampled files).
Both constructors are configuration-class errors: a dependency cycle
(naming the task keys on the cycle in order) or an unknown dependency
reference. Task execution failures are never raised as errors; they are
recorded in the result map. -/
inductive GardenError
  | circular (cycleKeys : List String)
  | unknownDependency (key : String)
deriving DecidableEq, Repr

/-- A task is eligible once every dependency key is among the completed
keys. -/
def readyB (doneKeys : List String) (t : GTask) : Bool :=
  t.deps.all (fun d => doneKeys.contains d)

/-- `topoOK done order`: processed in sequence after the keys in `done`,
every task in `order` has all its dependencies among the keys before it. -/
def topoOK : List String → List GTask → Prop
  | _, [] => True
  | done, t :: rest => (∀ d ∈ t.deps, d ∈ done) ∧ topoOK (done ++ [t.key]) rest

/-- The first dependency of `k` that lies in `rem`. -/
def nextDep (u : List GTask) (rem : List String) (k : String) : Option String :=
  (depsOf u k).find? (fun d => rem.contains d)

/-- Drop the prefix of a path before the first occurrence of `d`. -/
def cutCycle (d : String) : List String → List String
  | [] => []
  | x :: xs => if x = d then x :: xs else cutCycle d xs

/-- Walk dependency edges inside `rem`, extending the path until a node
repeats; the cycle is the path segment from the repeated node onward. -/
def walkCycle (u : List GTask) (rem : List String) :
    Nat → List String → String → List String
  | 0, _, _ => []
  | fuel + 1, path, k =>
    match nextDep u rem k with
    | none => []
    | some d => if d ∈ path then cutCycle d path else walkCycle u rem fuel (path ++ [d]) d

/-- Extract a dependency cycle from a stuck set of keys. -/
def findCycle (u : List GTask) (rem : List String) : List String :=
  match rem with
  | [] => []
  | k0 :: _ => walkCycle u rem (rem.length + 1) [k0] k0

/-- Modelled from the spec: admission ordering (step 3) and cycle
detection (step 1) of the `process` algorithm (the scheduler source is
missing from the sampled files). Kahn-style rounds: all eligible tasks are
appended to the order; if none is eligible while tasks remain, resolution
fails with a `circular` error naming a cycle. The fuel is the number of
pending tasks, which always suffices because every round admits at least
one task. -/
def kahnAux (u : List GTask) : Nat → List GTask → List GTask → Except GardenError (List GTask)
  | 0, ordered, pending =>
    if pending = [] then .ok ordered
    else .error (.circular (findCycle u (pending.map (·.key))))
  | fuel + 1, ordered, pending =>
    if pending = [] then .ok ordered
    else
      let rdy := pending.filter (readyB (ordered.map (·.key)))
      if rdy = [] then .error (.circular (findCycle u (pending.map (·.key))))
      else kahnAux u fuel (ordered ++ rdy)
        (pending.filter (fun t => !readyB (ordered.map (·.key)) t))

/-- Topologically sort the admitted tasks, or fail on a cycle. -/
def topoSort (u : List GTask) (admitted : List GTask) : Except GardenError (List GTask) :=
  kahnAux u admitted.length [] admitted

/-- `topoOK` is monotone in the completed keys. -/
theorem topoOK_mono : ∀ (l : List GTask) (done done' : List String),
    done ⊆ done' → topoOK done l → topoOK done' l := by
  intro l
  induction l with
  | nil => intro _ _ _ _; trivial
  | cons t rest ih =>
    intro done done' hsub h
    obtain ⟨h1, h2⟩ := h
    refine ⟨fun d hd => hsub (h1 d hd), ?_⟩
    refine ih _ _ ?_ h2
    intro x hx
    rcases List.mem_append.mp hx with hx | hx
    · exact List.mem_append.mpr (Or.inl (hsub hx))
    · exact List.mem_append.mpr (Or.inr hx)

/-- A block of tasks all of whose dependencies are already done is in
topological order. -/
theorem topoOK_of_all : ∀ (l : List GTask) (done : List String),
    (∀ t ∈ l, ∀ d ∈ t.deps, d ∈ done) → topoOK done l := by
  intro l
  induction l with
  | nil => intro _ _; trivial
  | cons t rest ih =>
    intro done h
    refine ⟨h t (List.mem_cons_self t rest), ?_⟩
    refine topoOK_mono rest done _ (List.subset_append_left _ _) ?_
    exact ih done (fun x hx => h x (List.mem_cons_of_mem t hx))

/-- Appending a block whose dependencies lie in the previous keys
preserves topological order. -/
theorem topoOK_append : ∀ (l1 l2 : List GTask) (done : List String),
    topoOK done l1 →
    (∀ t ∈ l2, ∀ d ∈ t.deps, d ∈ done ++ l1.map (·.key)) →
    topoOK done (l1 ++ l2) := by
  intro l1
  induction l1 with
  | nil =>
    intro l2 done _ h2
    simp only [List.nil_append]
    refine topoOK_of_all l2 done ?_
    intro t ht d hd
    simpa using h2 t ht d hd
  | cons t rest ih =>
    intro l2 done h1 h2
    obtain ⟨ha, hb⟩ := h1
    refine ⟨ha, ?_⟩
    refine ih l2 (done ++ [t.key]) hb ?_
    intro x hx d hd
    have := h2 x hx d hd
    simp only [List.map_cons, List.mem_append, List.mem_cons] at this ⊢
    rcases this with h | h | h
    · exact Or.inl (Or.inl h)
    · exact Or.inl (Or.inr (by simpa using h))
    · exact Or.inr h

end Garden

namespace Garden

theorem contains_true_iff (l : List String) (a : String) : l.contains a = true ↔ a ∈ l :=
  List.elem_iff

theorem readyB_mem (dk : List String) (t : GTask) (h : readyB dk t = true) :
    ∀ d ∈ t.deps, d ∈ dk := by
  intro d hd
  rw [readyB, List.all_eq_true] at h
  exact (contains_true_iff dk d).mp (h d hd)

theorem readyB_false_of (dk : List String) (t : GTask) (d : String)
    (hd : d ∈ t.deps) (hdk : d ∉ dk) : readyB dk t = false := by
  cases h : readyB dk t
  · rfl
  · exact absurd (readyB_mem dk t h d hd) hdk

/-- If a task in the universe is found by its key, its dependency keys are
exactly `depsOf`. -/
theorem depsOf_of_findTask (u : List GTask) (t : GTask)
    (h : findTask u t.key = some t) : depsOf u t.key = t.deps := by
  unfold depsOf
  rw [h]

/-- On success, Kahn yields a topological order that contains exactly the
admitted tasks, with pairwise distinct keys. -/
theorem kahnAux_ok_spec (u : List GTask) :
    ∀ (fuel : Nat) (ordered pending : List GTask),
      pending.length ≤ fuel →
      topoOK [] ordered →
      (∀ t ∈ pending, ∀ d ∈ t.deps,
        d ∈ ordered.map (·.key) ∨ d ∈ pending.map (·.key)) →
      ((ordered ++ pending).map (·.key)).Nodup →
      ∀ l, kahnAux u fuel ordered pending = .ok l →
        topoOK [] l ∧ (∀ x, x ∈ l ↔ x ∈ ordered ++ pending) ∧
        (l.map (·.key)).Nodup := by
  intro fuel
  induction fuel with
  | zero =>
    intro ordered pending hlen htopo hclosed hnd l hok
    have hpe : pending = [] := List.eq_nil_of_length_eq_zero (Nat.le_zero.mp hlen)
    subst hpe
    simp only [kahnAux, if_true, reduceIte, Except.ok.injEq] at hok
    subst hok
    refine ⟨htopo, fun x => ?_, by simpa using hnd⟩
    simp
  | succ fuel ih =>
    intro ordered pending hlen htopo hclosed hnd l hok
    by_cases hpe : pending = []
    · subst hpe
      simp only [kahnAux, if_true, reduceIte, Except.ok.injEq] at hok
      subst hok
      refine ⟨htopo, fun x => ?_, by simpa using hnd⟩
      simp
    · rw [kahnAux] at hok
      rw [if_neg hpe] at hok
      by_cases hre : pending.filter (readyB (ordered.map (·.key))) = []
      · rw [if_pos hre] at hok
        cases hok
      · rw [if_neg hre] at hok
        have hperm :
            List.Perm
              (pending.filter (readyB (ordered.map (·.key))) ++
                pending.filter (fun t => !readyB (ordered.map (·.key)) t))
              pending :=
          List.filter_append_perm _ pending
        have hlenp :
            (pending.filter (readyB (ordered.map (·.key)))).length +
              (pending.filter (fun t => !readyB (ordered.map (·.key)) t)).length =
              pending.length := by
          have := hperm.length_eq
          simpa [List.length_append] using this
        have hrlen : 0 < (pending.filter (readyB (ordered.map (·.key)))).length :=
          List.length_pos.mpr hre
        have hlen' :
            (pending.filter (fun t => !readyB (ordered.map (·.key)) t)).length ≤ fuel := by
          omega
        have hassoc :
            List.Perm
              ((ordered ++ pending.filter (readyB (ordered.map (·.key)))) ++
                pending.filter (fun t => !readyB (ordered.map (·.key)) t))
              (ordered ++ pending) := by
          rw [List.append_assoc]
          exact List.Perm.append_left ordered hperm
        have htopo' : topoOK [] (ordered ++ pending.filter (readyB (ordered.map (·.key)))) := by
          refine topoOK_append ordered _ [] htopo ?_
          intro t ht d hd
          have hr := (List.mem_filter.mp ht).2
          simpa using readyB_mem _ t hr d hd
        have hclosed' :
            ∀ t ∈ pending.filter (fun t => !readyB (ordered.map (·.key)) t),
              ∀ d ∈ t.deps,
                d ∈ (ordered ++ pending.filter (readyB (ordered.map (·.key)))).map (·.key) ∨
                d ∈ (pending.filter (fun t => !readyB (ordered.map (·.key)) t)).map (·.key) := by
          intro t ht d hd
          rcases hclosed t (List.mem_filter.mp ht).1 d hd with h | h
          · left
            simp only [List.map_append, List.mem_append]
            exact Or.inl h
          · obtain ⟨p, hp, hpk⟩ := List.mem_map.mp h
            by_cases hrp : readyB (ordered.map (·.key)) p = true
            · left
              simp only [List.map_append, List.mem_append]
              exact Or.inr (List.mem_map.mpr ⟨p, List.mem_filter.mpr ⟨hp, hrp⟩, hpk⟩)
            · right
              refine List.mem_map.mpr ⟨p, List.mem_filter.mpr ⟨hp, ?_⟩, hpk⟩
              simp only [Bool.not_eq_true] at hrp
              rw [hrp]
              rfl
        have hnd' :
            (((ordered ++ pending.filter (readyB (ordered.map (·.key)))) ++
              pending.filter (fun t => !readyB (ordered.map (·.key)) t)).map (·.key)).Nodup :=
          ((hassoc.map (·.key)).nodup_iff).mpr hnd
        obtain ⟨t1, t2, t3⟩ := ih _ _ hlen' htopo' hclosed' hnd' l hok
        refine ⟨t1, fun x => ?_, t3⟩
        rw [t2 x]
        exact hassoc.mem_iff

/-- On failure, Kahn reports a circular error extracted from a stuck set:
a nonempty duplicate-free set of keys, each of which has a dependency
inside the set. -/
theorem kahnAux_error_spec (u : List GTask) :
    ∀ (fuel : Nat) (ordered pending : List GTask),
      pending.length ≤ fuel →
      (∀ t ∈ pending, ∀ d ∈ t.deps,
        d ∈ ordered.map (·.key) ∨ d ∈ pending.map (·.key)) →
      ((ordered ++ pending).map (·.key)).Nodup →
      (∀ t ∈ pending, findTask u t.key = some t) →
      ∀ e, kahnAux u fuel ordered pending = .error e →
        ∃ rem : List String, e = .circular (findCycle u rem) ∧ rem ≠ [] ∧
          rem.Nodup ∧ (∀ k ∈ rem, ∃ d, d ∈ depsOf u k ∧ d ∈ rem) := by
  intro fuel
  induction fuel with
  | zero =>
    intro ordered pending hlen hclosed hnd hcanon e herr
    have hpe : pending = [] := List.eq_nil_of_length_eq_zero (Nat.le_zero.mp hlen)
    subst hpe
    simp only [kahnAux, if_true, reduceIte] at herr
    cases herr
  | succ fuel ih =>
    intro ordered pending hlen hclosed hnd hcanon e herr
    by_cases hpe : pending = []
    · subst hpe
      simp only [kahnAux, if_true, reduceIte] at herr
      cases herr
    · rw [kahnAux] at herr
      rw [if_neg hpe] at herr
      by_cases hre : pending.filter (readyB (ordered.map (·.key))) = []
      · rw [if_pos hre] at herr
        simp only [Except.error.injEq] at herr
        subst herr
        refine ⟨pending.map (·.key), rfl, ?_, ?_, ?_⟩
        · simp only [ne_eq, List.map_eq_nil_iff]
          exact hpe
        · rw [List.map_append, List.nodup_append] at hnd
          exact hnd.2.1
        · intro k hk
          obtain ⟨t, ht, htk⟩ := List.mem_map.mp hk
          have hnr : readyB (ordered.map (·.key)) t = false := by
            rw [List.filter_eq_nil_iff] at hre
            have := hre t ht
            simpa using this
          rw [readyB, List.all_eq_false] at hnr
          obtain ⟨d, hd, hdc⟩ := hnr
          have hdnot : d ∉ ordered.map (·.key) := by
            intro hmem
            exact hdc ((contains_true_iff (ordered.map (·.key)) d).mpr hmem)
          have hdp : d ∈ pending.map (·.key) := by
            rcases hclosed t ht d hd with h | h
            · exact absurd h hdnot
            · exact h
          subst htk
          refine ⟨d, ?_, hdp⟩
          rw [depsOf_of_findTask u t (hcanon t ht)]
          exact hd
      · rw [if_neg hre] at herr
        have hperm :
            List.Perm
              (pending.filter (readyB (ordered.map (·.key))) ++
                pending.filter (fun t => !readyB (ordered.map (·.key)) t))
              pending :=
          List.filter_append_perm _ pending
        have hlenp :
            (pending.filter (readyB (ordered.map (·.key)))).length +
              (pending.filter (fun t => !readyB (ordered.map (·.key)) t)).length =
              pending.length := by
          have := hperm.length_eq
          simpa [List.length_append] using this
        have hrlen : 0 < (pending.filter (readyB (ordered.map (·.key)))).length :=
          List.length_pos.mpr hre
        have hlen' :
            (pending.filter (fun t => !readyB (ordered.map (·.key)) t)).length ≤ fuel := by
          omega
        have hassoc :
            List.Perm
              ((ordered ++ pending.filter (readyB (ordered.map (·.key)))) ++
                pending.filter (fun t => !readyB (ordered.map (·.key)) t))
              (ordered ++ pending) := by
          rw [List.append_assoc]
          exact List.Perm.append_left ordered hperm
        have hclosed' :
            ∀ t ∈ pending.filter (fun t => !readyB (ordered.map (·.key)) t),
              ∀ d ∈ t.deps,
                d ∈ (ordered ++ pending.filter (readyB (ordered.map (·.key)))).map (·.key) ∨
                d ∈ (pending.filter (fun t => !readyB (ordered.map (·.key)) t)).map (·.key) := by
          intro t ht d hd
          rcases hclosed t (List.mem_filter.mp ht).1 d hd with h | h
          · left
            simp only [List.map_append, List.mem_append]
            exact Or.inl h
          · obtain ⟨p, hp, hpk⟩ := List.mem_map.mp h
            by_cases hrp : readyB (ordered.map (·.key)) p = true
            · left
              simp only [List.map_append, List.mem_append]
              exact Or.inr (List.mem_map.mpr ⟨p, List.mem_filter.mpr ⟨hp, hrp⟩, hpk⟩)
            · right
              refine List.mem_map.mpr ⟨p, List.mem_filter.mpr ⟨hp, ?_⟩, hpk⟩
              simp only [Bool.not_eq_true] at hrp
              rw [hrp]
              rfl
        have hnd' :
            (((ordered ++ pending.filter (readyB (ordered.map (·.key)))) ++
              pending.filter (fun t => !readyB (ordered.map (·.key)) t)).map (·.key)).Nodup :=
          ((hassoc.map (·.key)).nodup_iff).mpr hnd
        have hcanon' :
            ∀ t ∈ pending.filter (fun t => !readyB (ordered.map (·.key)) t),
              findTask u t.key = some t := by
          intro t ht
          exact hcanon t (List.mem_filter.mp ht).1
        exact ih _ _ hlen' hclosed' hnd' hcanon' e herr

/-- If a nonempty set of keys, each with a dependency inside the set, is
pending, Kahn can never succeed (the cycle keys stay pending forever). -/
theorem kahnAux_no_ok (u : List GTask) :
    ∀ (fuel : Nat) (ordered pending : List GTask) (C : List String),
      C ≠ [] →
      (∀ x ∈ C, x ∈ pending.map (·.key)) →
      (∀ x ∈ C, ∃ d, d ∈ depsOf u x ∧ d ∈ C) →
      ((ordered ++ pending).map (·.key)).Nodup →
      (∀ t ∈ pending, findTask u t.key = some t) →
      ∀ l, kahnAux u fuel ordered pending ≠ .ok l := by
  intro fuel
  induction fuel with
  | zero =>
    intro ordered pending C hC hCp hCd hnd hcanon l hok
    by_cases hpe : pending = []
    · obtain ⟨x, hx⟩ := List.exists_mem_of_ne_nil C hC
      have := hCp x hx
      rw [hpe] at this
      cases this
    · rw [kahnAux, if_neg hpe] at hok
      cases hok
  | succ fuel ih =>
    intro ordered pending C hC hCp hCd hnd hcanon l hok
    by_cases hpe : pending = []
    · obtain ⟨x, hx⟩ := List.exists_mem_of_ne_nil C hC
      have := hCp x hx
      rw [hpe] at this
      cases this
    · rw [kahnAux, if_neg hpe] at hok
      by_cases hre : pending.filter (readyB (ordered.map (·.key))) = []
      · rw [if_pos hre] at hok
        cases hok
      · rw [if_neg hre] at hok
        -- every key of C stays pending: its task has a dependency inside C,
        -- which is a pending key, hence not a completed key
        have hCstay : ∀ x ∈ C,
            x ∈ (pending.filter (fun t => !readyB (ordered.map (·.key)) t)).map (·.key) := by
          intro x hx
          obtain ⟨t, ht, htk⟩ := List.mem_map.mp (hCp x hx)
          obtain ⟨d, hdd, hdC⟩ := hCd x hx
          have hdp : d ∈ pending.map (·.key) := hCp d hdC
          have hdnotdone : d ∉ ordered.map (·.key) := by
            intro hmem
            rw [List.map_append, List.nodup_append] at hnd
            exact hnd.2.2 hmem hdp
          have hdt : d ∈ t.deps := by
            rw [← depsOf_of_findTask u t (hcanon t ht), htk]
            exact hdd
          have hnr : readyB (ordered.map (·.key)) t = false :=
            readyB_false_of _ t d hdt hdnotdone
          refine List.mem_map.mpr ⟨t, List.mem_filter.mpr ⟨ht, ?_⟩, htk⟩
          rw [hnr]
          rfl
        have hperm :
            List.Perm
              (pending.filter (readyB (ordered.map (·.key))) ++
                pending.filter (fun t => !readyB (ordered.map (·.key)) t))
              pending :=
          List.filter_append_perm _ pending
        have hassoc :
            List.Perm
              ((ordered ++ pending.filter (readyB (ordered.map (·.key)))) ++
                pending.filter (fun t => !readyB (ordered.map (·.key)) t))
              (ordered ++ pending) := by
          rw [List.append_assoc]
          exact List.Perm.append_left ordered hperm
        have hnd' :
            (((ordered ++ pending.filter (readyB (ordered.map (·.key)))) ++
              pending.filter (fun t => !readyB (ordered.map (·.key)) t)).map (·.key)).Nodup :=
          ((hassoc.map (·.key)).nodup_iff).mpr hnd
        have hcanon' :
            ∀ t ∈ pending.filter (fun t => !readyB (ordered.map (·.key)) t),
              findTask u t.key = some t := by
          intro t ht
          exact hcanon t (List.mem_filter.mp ht).1
        exact ih _ _ C hC hCstay hCd hnd' hcanon' l hok

/-- A genuine dependency cycle: a nonempty key list where each key has the
next among its dependencies, and the last has the first among its
dependencies. -/
def IsCycle (u : List GTask) (c : List String) : Prop :=
  c ≠ [] ∧ c.Chain' (fun a b => b ∈ depsOf u a) ∧
  ∀ x y, c.getLast? = some x → c.head? = some y → y ∈ depsOf u x

/-- A dependency path: `DepPath u a b` when task `a` transitively depends
on task `b` through the universe `u`. -/
inductive DepPath (u : List GTask) : String → String → Prop
  | single {a b : String} : b ∈ depsOf u a → DepPath u a b
  | cons {a c b : String} : c ∈ depsOf u a → DepPath u c b → DepPath u a b

theorem cutCycle_suffix (d : String) : ∀ (l : List String),
    List.IsSuffix (cutCycle d l) l := by
  intro l
  induction l with
  | nil => exact ⟨[], rfl⟩
  | cons x xs ih =>
    by_cases hx : x = d
    · simp only [cutCycle, if_pos hx]
      exact ⟨[], rfl⟩
    · simp only [cutCycle, if_neg hx]
      obtain ⟨pre, hp⟩ := ih
      exact ⟨x :: pre, by rw [List.cons_append, hp]⟩

theorem cutCycle_head (d : String) : ∀ (l : List String), d ∈ l →
    (cutCycle d l).head? = some d := by
  intro l
  induction l with
  | nil => intro h; cases h
  | cons x xs ih =>
    intro h
    by_cases hx : x = d
    · subst hx
      simp [cutCycle]
    · simp only [cutCycle, if_neg hx]
      rcases List.mem_cons.mp h with h | h
      · exact absurd h.symm hx
      · exact ih h

theorem chain'_of_suffix {R : String → String → Prop} {l l' : List String}
    (h : l.Chain' R) (hs : List.IsSuffix l' l) : l'.Chain' R := by
  obtain ⟨pre, rfl⟩ := hs
  exact (List.chain'_append.mp h).2.1

theorem getLast?_of_suffix {l l' : List String} (hs : List.IsSuffix l' l)
    (hne : l' ≠ []) : l'.getLast? = l.getLast? := by
  obtain ⟨pre, rfl⟩ := hs
  rw [List.getLast?_append_of_ne_nil pre hne]

/-- Soundness of the cycle walk: under the stuckness hypothesis, the walk
returns a genuine dependency cycle. -/
theorem walkCycle_sound (u : List GTask) (rem : List String)
    (H : ∀ k ∈ rem, ∃ d, d ∈ depsOf u k ∧ d ∈ rem) (hndrem : rem.Nodup) :
    ∀ (fuel : Nat) (path : List String) (k : String),
      path ≠ [] → path.getLast? = some k → path.Nodup →
      (∀ x ∈ path, x ∈ rem) →
      path.Chain' (fun a b => b ∈ depsOf u a) →
      rem.length + 1 ≤ fuel + path.length →
      IsCycle u (walkCycle u rem fuel path k) := by
  intro fuel
  induction fuel with
  | zero =>
    intro path k hne hlast hnd hsub hchain hlen
    exfalso
    have hple : path.length ≤ rem.length := (hnd.subperm hsub).length_le
    omega
  | succ fuel ih =>
    intro path k hne hlast hnd hsub hchain hlen
    have hkpath : k ∈ path := by
      obtain ⟨h0, hkl⟩ := List.mem_getLast?_eq_getLast (Option.mem_def.mpr hlast)
      rw [hkl]
      exact List.getLast_mem h0
    have hkrem : k ∈ rem := hsub k hkpath
    obtain ⟨d0, hd0, hd0rem⟩ := H k hkrem
    have hfind : ∃ d, nextDep u rem k = some d := by
      have : ((depsOf u k).find? (fun d => rem.contains d)).isSome := by
        rw [List.find?_isSome]
        exact ⟨d0, hd0, (contains_true_iff rem d0).mpr hd0rem⟩
      exact Option.isSome_iff_exists.mp this
    obtain ⟨d, hdfind⟩ := hfind
    have hddep : d ∈ depsOf u k := List.mem_of_find?_eq_some hdfind
    have hdrem : d ∈ rem := (contains_true_iff rem d).mp (List.find?_some hdfind)
    rw [walkCycle]
    rw [hdfind]
    dsimp only
    by_cases hdp : d ∈ path
    · rw [if_pos hdp]
      have hsuffix := cutCycle_suffix d path
      have hhead := cutCycle_head d path hdp
      have hcne : cutCycle d path ≠ [] := by
        intro habs
        rw [habs] at hhead
        cases hhead
      refine ⟨hcne, chain'_of_suffix hchain hsuffix, ?_⟩
      intro x y hx hy
      rw [getLast?_of_suffix hsuffix hcne, hlast] at hx
      rw [hhead] at hy
      cases hx
      cases hy
      exact hddep
    · rw [if_neg hdp]
      refine ih (path ++ [d]) d ?_ ?_ ?_ ?_ ?_ ?_
      · simp
      · simp
      · refine List.Nodup.append hnd (List.nodup_singleton d) ?_
        intro a ha hamem
        rw [List.mem_singleton] at hamem
        subst hamem
        exact hdp ha
      · intro x hx
        rcases List.mem_append.mp hx with hx | hx
        · exact hsub x hx
        · rw [List.mem_singleton] at hx
          subst hx
          exact hdrem
      · rw [List.chain'_append]
        refine ⟨hchain, List.chain'_singleton d, ?_⟩
        intro x hx y hy
        rw [hlast] at hx
        simp only [List.head?_cons, Option.mem_def, Option.some.injEq] at hx hy
        subst hx
        subst hy
        exact hddep
      · rw [List.length_append, List.length_singleton]
        omega

/-- The extracted cycle from a nonempty stuck set is a genuine cycle. -/
theorem findCycle_isCycle (u : List GTask) (rem : List String)
    (hne : rem ≠ []) (hnd : rem.Nodup)
    (H : ∀ k ∈ rem, ∃ d, d ∈ depsOf u k ∧ d ∈ rem) :
    IsCycle u (findCycle u rem) := by
  cases rem with
  | nil => exact absurd rfl hne
  | cons k0 rest =>
    show IsCycle u (walkCycle u (k0 :: rest) ((k0 :: rest).length + 1) [k0] k0)
    refine walkCycle_sound u (k0 :: rest) H hnd _ [k0] k0 ?_ ?_ ?_ ?_ ?_ ?_
    · simp
    · simp
    · exact List.nodup_singleton k0
    · intro x hx
      rw [List.mem_singleton] at hx
      rw [hx]
      exact List.mem_cons_self k0 rest
    · exact List.chain'_singleton k0
    · simp

/-- In a dependency chain, every node either has an edge to another node
of the chain or is the last node. -/
theorem chain_next_or_last {R : String → String → Prop} :
    ∀ (p : List String), p.Chain' R →
      ∀ x ∈ p, (∃ d, R x d ∧ d ∈ p) ∨ p.getLast? = some x := by
  intro p
  induction p with
  | nil => intro _ x hx; cases hx
  | cons a rest ih =>
    intro hchain x hx
    rcases List.mem_cons.mp hx with hx | hx
    · subst hx
      cases rest with
      | nil => exact Or.inr rfl
      | cons r rs =>
        rw [List.chain'_cons] at hchain
        exact Or.inl ⟨r, hchain.1, List.mem_cons_of_mem _ (List.mem_cons_self r rs)⟩
    · have hrest : rest.Chain' R := List.Chain'.tail hchain
      rcases ih hrest x hx with ⟨d, hRd, hdm⟩ | hlast
      · exact Or.inl ⟨d, hRd, List.mem_cons_of_mem _ hdm⟩
      · exact Or.inr (Option.mem_def.mp (List.mem_getLast?_cons (Option.mem_def.mpr hlast)))

/-- A dependency path unfolds into an explicit chain of edges. -/
theorem depPath_to_chain (u : List GTask) (a b : String) (h : DepPath u a b) :
    ∃ p : List String, p ≠ [] ∧ p.head? = some a ∧
      p.Chain' (fun x y => y ∈ depsOf u x) ∧
      (∀ x, p.getLast? = some x → b ∈ depsOf u x) ∧
      (∀ x ∈ p, x = a ∨ DepPath u a x) := by
  induction h with
  | single hab =>
    refine ⟨[_], by simp, rfl, List.chain'_singleton _, ?_, ?_⟩
    · intro x hx
      simp only [List.getLast?_singleton, Option.some.injEq] at hx
      subst hx
      exact hab
    · intro x hx
      rw [List.mem_singleton] at hx
      exact Or.inl hx
  | cons hac hcb ih =>
    obtain ⟨p, hne, hhead, hchain, hlast, hmem⟩ := ih
    rename_i a c b
    refine ⟨a :: p, by simp, rfl, ?_, ?_, ?_⟩
    · rw [List.chain'_cons']
      refine ⟨?_, hchain⟩
      intro y hy
      rw [hhead] at hy
      rw [Option.mem_def, Option.some.injEq] at hy
      subst hy
      exact hac
    · intro x hx
      cases p with
      | nil => exact absurd rfl hne
      | cons q qs =>
        rw [List.getLast?_cons_cons] at hx
        exact hlast x hx
    · intro x hx
      rcases List.mem_cons.mp hx with hx | hx
      · exact Or.inl hx
      · rcases hmem x hx with hx | hx
        · subst hx
          exact Or.inr (DepPath.single hac)
        · exact Or.inr (DepPath.cons hac hx)

/-- Dependency paths preserve reachability. -/
theorem reach_of_depPath (u : List GTask) (init : List String) (a b : String)
    (ha : Reach u init a) (h : DepPath u a b) : Reach u init b := by
  induction h with
  | single hab =>
    rename_i a' b'
    unfold depsOf at hab
    cases hft : findTask u a' with
    | none => rw [hft] at hab; cases hab
    | some t =>
      rw [hft] at hab
      exact Reach.step ha hft hab
  | cons hac hcb ih =>
    rename_i a' c' b'
    have hc : Reach u init c' := by
      unfold depsOf at hac
      cases hft : findTask u a' with
      | none => rw [hft] at hac; cases hac
      | some t =>
        rw [hft] at hac
        exact Reach.step ha hft hac
    exact ih hc

/-- A self-path yields a set of keys each of which has a dependency inside
the set, all reachable from the start of the path. -/
theorem cycle_set_of_depPath (u : List GTask) (init : List String) (k : String)
    (hreach : Reach u init k) (h : DepPath u k k) :
    ∃ C : List String, C ≠ [] ∧
      (∀ x ∈ C, ∃ d, d ∈ depsOf u x ∧ d ∈ C) ∧
      (∀ x ∈ C, Reach u init x) := by
  obtain ⟨p, hne, hhead, hchain, hlast, hmem⟩ := depPath_to_chain u k k h
  refine ⟨p, hne, ?_, ?_⟩
  · intro x hx
    rcases chain_next_or_last p hchain x hx with ⟨d, hd, hdm⟩ | hl
    · exact ⟨d, hd, hdm⟩
    · refine ⟨k, hlast x hl, ?_⟩
      exact List.mem_of_mem_head? (Option.mem_def.mpr hhead)
  · intro x hx
    rcases hmem x hx with hx | hx
    · subst hx
      exact hreach
    · exact reach_of_depPath u init k x hreach hx

/-- Modelled from the spec: terminal task outcomes of section 4.1 (the
scheduler source is missing from the sampled files). Every recorded result
is terminal; `succeeded true` marks completion straight from the result
cache. -/
inductive Outcome
  | succeeded (fromCache : Bool)
  | failed
  | skipped
deriving DecidableEq, Repr

/-- The result map: most recent entry first, keyed by task key. -/
def ResultMap : Type := List (String × Outcome)

/-- Modelled from the spec: the Result Cache of section 4.3 (the scheduler
source is missing from the sampled files): entries keyed by task key and
exact content version, holding whether that execution succeeded; most
recent entry first. -/
def Cache : Type := List ((String × Nat) × Bool)

/-- Look up the most recent result recorded for a key. -/
def lookupRes : List (String × Outcome) → String → Option Outcome
  | [], _ => none
  | (k', o) :: rest, k => if k' = k then some o else lookupRes rest k

/-- Modelled from the spec: `get(key, version)` of the Result Cache
(section 4.3): only an exact (key, version) match is consulted. -/
def cacheGet : List ((String × Nat) × Bool) → String → Nat → Option Bool
  | [], _, _ => none
  | ((k', v'), b) :: rest, k, v => if k' = k ∧ v' = v then some b else cacheGet rest k v

/-- Whether a dependency result blocks its dependents (failed, or skipped
because of an upstream failure). -/
def badRes : Option Outcome → Bool
  | some .failed => true
  | some .skipped => true
  | _ => false

/-- Whether some dependency of the task has failed or been skipped. -/
def depFailed (rs : List (String × Outcome)) (t : GTask) : Bool :=
  t.deps.any (fun d => badRes (lookupRes rs d))

/-- Modelled from the spec: the mutable execution state of the run phase
(the scheduler source is missing from the sampled files): results so far,
the result cache, and the log of keys whose executor was actually
invoked. -/
structure RunState where
  results : List (String × Outcome)
  cache : List ((String × Nat) × Bool)
  executed : List String

/-- The outcome the run phase assigns to a task, given the results of its
dependencies, the cache, and the executor: skip on a failed or skipped
dependency; otherwise serve a cached success for the exact (key, version)
unless forced; otherwise invoke the executor. -/
def branchOutcome (exec : String → Nat → Bool)
    (c : List ((String × Nat) × Bool)) (rs : List (String × Outcome))
    (t : GTask) : Outcome :=
  if depFailed rs t then .skipped
  else if !t.force && (cacheGet c t.key t.version == some true) then .succeeded true
  else if exec t.key t.version then .succeeded false else .failed

/-- Modelled from the spec: processing one task in the admission order
(steps 5 and 6 of section 4.1): failure propagation without execution,
cache short-circuit without execution, or executor invocation with the
outcome recorded in the cache. -/
def runOne (exec : String → Nat → Bool) (st : RunState) (t : GTask) : RunState :=
  if depFailed st.results t then
    { st with results := (t.key, .skipped) :: st.results }
  else if !t.force && (cacheGet st.cache t.key t.version == some true) then
    { st with results := (t.key, .succeeded true) :: st.results }
  else
    { results :=
        (t.key, if exec t.key t.version then Outcome.succeeded false else .failed) :: st.results
      cache := ((t.key, t.version), exec t.key t.version) :: st.cache
      executed := st.executed ++ [t.key] }

/-- Run every task of the order in sequence. -/
def runAll (exec : String → Nat → Bool) (st : RunState) : List GTask → RunState
  | [] => st
  | t :: rest => runAll exec (runOne exec st t) rest

theorem cacheGet_cons (k' : String) (v' : Nat) (b : Bool)
    (rest : List ((String × Nat) × Bool)) (k : String) (v : Nat) :
    cacheGet (((k', v'), b) :: rest) k v =
      if k' = k ∧ v' = v then some b else cacheGet rest k v := rfl

theorem badRes_true_iff (o : Option Outcome) :
    badRes o = true ↔ o = some .failed ∨ o = some .skipped := by
  cases o with
  | none => simp [badRes]
  | some x => cases x <;> simp [badRes]

theorem runOne_results (exec : String → Nat → Bool) (st : RunState) (t : GTask) :
    (runOne exec st t).results =
      (t.key, branchOutcome exec st.cache st.results t) :: st.results := by
  unfold runOne branchOutcome
  by_cases h1 : depFailed st.results t
  · rw [if_pos h1, if_pos h1]
  · rw [if_neg h1, if_neg h1]
    by_cases h2 : (!t.force && (cacheGet st.cache t.key t.version == some true)) = true
    · rw [if_pos h2, if_pos h2]
    · rw [if_neg h2, if_neg h2]

theorem runOne_cacheGet_ne (exec : String → Nat → Bool) (st : RunState) (t : GTask)
    (k : String) (v : Nat) (hk : k ≠ t.key) :
    cacheGet (runOne exec st t).cache k v = cacheGet st.cache k v := by
  unfold runOne
  by_cases h1 : depFailed st.results t
  · rw [if_pos h1]
  · rw [if_neg h1]
    by_cases h2 : (!t.force && (cacheGet st.cache t.key t.version == some true)) = true
    · rw [if_pos h2]
    · rw [if_neg h2]
      show cacheGet (((t.key, t.version), exec t.key t.version) :: st.cache) k v = _
      rw [cacheGet_cons]
      rw [if_neg]
      intro hc
      exact hk hc.1.symm

theorem branchOutcome_skipped_iff (exec : String → Nat → Bool)
    (c : List ((String × Nat) × Bool)) (rs : List (String × Outcome)) (t : GTask) :
    branchOutcome exec c rs t = .skipped ↔ depFailed rs t = true := by
  unfold branchOutcome
  by_cases h1 : depFailed rs t
  · rw [if_pos h1]
    simp [h1]
  · rw [if_neg h1]
    by_cases h2 : (!t.force && (cacheGet c t.key t.version == some true)) = true
    · rw [if_pos h2]
      simp [h1]
    · rw [if_neg h2]
      by_cases h3 : exec t.key t.version
      · rw [if_pos h3]
        simp [h1]
      · rw [if_neg h3]
        simp [h1]

theorem runOne_exec_state (exec : String → Nat → Bool) (st : RunState) (t : GTask)
    (h : branchOutcome exec st.cache st.results t = .succeeded false ∨
         branchOutcome exec st.cache st.results t = .failed) :
    (runOne exec st t).cache = ((t.key, t.version), exec t.key t.version) :: st.cache ∧
    (runOne exec st t).executed = st.executed ++ [t.key] := by
  unfold runOne
  unfold branchOutcome at h
  by_cases h1 : depFailed st.results t
  · rw [if_pos h1] at h
    rcases h with h | h <;> cases h
  · rw [if_neg h1] at h
    rw [if_neg h1]
    by_cases h2 : (!t.force && (cacheGet st.cache t.key t.version == some true)) = true
    · rw [if_pos h2] at h
      rcases h with h | h <;> cases h
    · rw [if_neg h2]
      exact ⟨rfl, rfl⟩

theorem runOne_noexec_state (exec : String → Nat → Bool) (st : RunState) (t : GTask)
    (h : branchOutcome exec st.cache st.results t = .succeeded true ∨
         branchOutcome exec st.cache st.results t = .skipped) :
    (runOne exec st t).cache = st.cache ∧
    (runOne exec st t).executed = st.executed := by
  unfold runOne
  unfold branchOutcome at h
  by_cases h1 : depFailed st.results t
  · rw [if_pos h1]
    exact ⟨rfl, rfl⟩
  · rw [if_neg h1] at h
    rw [if_neg h1]
    by_cases h2 : (!t.force && (cacheGet st.cache t.key t.version == some true)) = true
    · rw [if_pos h2]
      exact ⟨rfl, rfl⟩
    · rw [if_neg h2] at h
      exfalso
      by_cases h3 : exec t.key t.version
      · rw [if_pos h3] at h
        rcases h with h | h <;> cases h
      · rw [if_neg h3] at h
        rcases h with h | h <;> cases h

theorem any_badRes_congr (rs1 rs2 : List (String × Outcome)) :
    ∀ (ds : List String), (∀ d ∈ ds, lookupRes rs1 d = lookupRes rs2 d) →
      (ds.any fun d => badRes (lookupRes rs1 d)) =
        (ds.any fun d => badRes (lookupRes rs2 d)) := by
  intro ds
  induction ds with
  | nil => intro _; rfl
  | cons d ds ih =>
    intro h
    simp only [List.any_cons]
    rw [h d (List.mem_cons_self d ds), ih (fun x hx => h x (List.mem_cons_of_mem d hx))]

theorem depFailed_congr (rs1 rs2 : List (String × Outcome)) (t : GTask)
    (h : ∀ d ∈ t.deps, lookupRes rs1 d = lookupRes rs2 d) :
    depFailed rs1 t = depFailed rs2 t :=
  any_badRes_congr rs1 rs2 t.deps h

theorem branchOutcome_congr_results (exec : String → Nat → Bool)
    (c : List ((String × Nat) × Bool)) (rs1 rs2 : List (String × Outcome)) (t : GTask)
    (h : ∀ d ∈ t.deps, lookupRes rs1 d = lookupRes rs2 d) :
    branchOutcome exec c rs1 t = branchOutcome exec c rs2 t := by
  unfold branchOutcome
  rw [depFailed_congr rs1 rs2 t h]

theorem branchOutcome_congr_cache (exec : String → Nat → Bool)
    (c1 c2 : List ((String × Nat) × Bool)) (rs : List (String × Outcome)) (t : GTask)
    (h : cacheGet c1 t.key t.version = cacheGet c2 t.key t.version) :
    branchOutcome exec c1 rs t = branchOutcome exec c2 rs t := by
  unfold branchOutcome
  rw [h]

theorem lookupRes_cons (k' : String) (o : Outcome) (rs : List (String × Outcome)) (k : String) :
    lookupRes ((k', o) :: rs) k = if k' = k then some o else lookupRes rs k := rfl

/-- Master lemma for the run phase: processing an order whose tasks have
all dependencies behind them (topological order, pairwise distinct keys)
yields, relative to the starting state: stability of untouched keys,
a result for exactly the processed and previous keys, the branch outcome
for every processed task, execution log soundness, skip-chain soundness,
and cache evolution for executed and non-executed tasks. -/
theorem runAll_spec (u : List GTask) (exec : String → Nat → Bool) :
    ∀ (order : List GTask) (st : RunState) (done : List String),
      (∀ k, (lookupRes st.results k).isSome ↔ k ∈ done) →
      ((done ++ order.map (·.key)).Nodup) →
      topoOK done order →
      (∀ t ∈ order, findTask u t.key = some t) →
      (∀ k, lookupRes st.results k = some .skipped →
        ∃ b, DepPath u k b ∧ lookupRes st.results b = some .failed) →
      (∀ k, k ∈ st.executed →
        ∃ o, lookupRes st.results k = some o ∧ (o = .succeeded false ∨ o = .failed)) →
      (∀ k, k ∉ order.map (·.key) →
          lookupRes (runAll exec st order).results k = lookupRes st.results k) ∧
      (∀ k v, k ∉ order.map (·.key) →
          cacheGet (runAll exec st order).cache k v = cacheGet st.cache k v) ∧
      (∀ k, (lookupRes (runAll exec st order).results k).isSome ↔
          (k ∈ done ∨ k ∈ order.map (·.key))) ∧
      (∀ t ∈ order, lookupRes (runAll exec st order).results t.key =
          some (branchOutcome exec st.cache (runAll exec st order).results t)) ∧
      (∀ k, k ∈ (runAll exec st order).executed →
          ∃ o, lookupRes (runAll exec st order).results k = some o ∧
            (o = .succeeded false ∨ o = .failed)) ∧
      (∀ k, lookupRes (runAll exec st order).results k = some .skipped →
          ∃ b, DepPath u k b ∧
            lookupRes (runAll exec st order).results b = some .failed) ∧
      (∀ t ∈ order,
          (branchOutcome exec st.cache (runAll exec st order).results t = .succeeded false ∨
           branchOutcome exec st.cache (runAll exec st order).results t = .failed) →
          cacheGet (runAll exec st order).cache t.key t.version =
            some (exec t.key t.version)) ∧
      (∀ t ∈ order,
          (branchOutcome exec st.cache (runAll exec st order).results t = .succeeded true ∨
           branchOutcome exec st.cache (runAll exec st order).results t = .skipped) →
          ∀ v, cacheGet (runAll exec st order).cache t.key v =
            cacheGet st.cache t.key v) := by
  intro order
  induction order with
  | nil =>
    intro st done hdone hnd htopo hcanon hskip hexec
    refine ⟨fun k _ => rfl, fun k v _ => rfl, ?_, ?_, hexec, hskip, ?_, ?_⟩
    · intro k
      show (lookupRes st.results k).isSome = true ↔ _
      rw [hdone k]
      simp
    · intro t ht
      cases ht
    · intro t ht
      cases ht
    · intro t ht
      cases ht
  | cons t rest ih =>
    intro st done hdone hnd htopo hcanon hskip hexec
    obtain ⟨hdeps, htopo'⟩ := htopo
    have hnd2 : (done ++ (t.key :: rest.map (·.key))).Nodup := by
      simpa using hnd
    rw [List.nodup_append] at hnd2
    obtain ⟨hd1, hd2, hd3⟩ := hnd2
    obtain ⟨htk_rest, hndr⟩ := List.nodup_cons.mp hd2
    have htk_done : t.key ∉ done := by
      intro hmem
      exact hd3 hmem (List.mem_cons_self _ _)
    have hdone_not : ∀ d ∈ done, d ≠ t.key ∧ d ∉ rest.map (·.key) := by
      intro d hd
      have hmem := hd3 hd
      constructor
      · intro he
        exact hmem (by rw [he]; exact List.mem_cons_self _ _)
      · intro he
        exact hmem (List.mem_cons_of_mem _ he)
    have hres' : (runOne exec st t).results =
        (t.key, branchOutcome exec st.cache st.results t) :: st.results :=
      runOne_results exec st t
    have hdone' : ∀ k, (lookupRes (runOne exec st t).results k).isSome ↔
        k ∈ done ++ [t.key] := by
      intro k
      rw [hres', lookupRes_cons]
      by_cases hk : t.key = k
      · subst hk
        simp [htk_done]
      · rw [if_neg hk, hdone k]
        constructor
        · intro h
          exact List.mem_append.mpr (Or.inl h)
        · intro h
          rcases List.mem_append.mp h with h | h
          · exact h
          · rw [List.mem_singleton] at h
            exact absurd h.symm hk
    have hnd' : ((done ++ [t.key]) ++ rest.map (·.key)).Nodup := by
      rw [List.append_assoc, List.singleton_append]
      simpa using hnd
    have hcanon' : ∀ x ∈ rest, findTask u x.key = some x :=
      fun x hx => hcanon x (List.mem_cons_of_mem t hx)
    have hcanont : findTask u t.key = some t := hcanon t (List.mem_cons_self t rest)
    have hskip' : ∀ k, lookupRes (runOne exec st t).results k = some .skipped →
        ∃ b, DepPath u k b ∧ lookupRes (runOne exec st t).results b = some .failed := by
      intro k hk
      rw [hres', lookupRes_cons] at hk
      by_cases hkt : t.key = k
      · rw [if_pos hkt] at hk
        have hbo : branchOutcome exec st.cache st.results t = .skipped :=
          Option.some.inj hk
        have hdf : depFailed st.results t = true :=
          (branchOutcome_skipped_iff exec st.cache st.results t).mp hbo
        rw [depFailed, List.any_eq_true] at hdf
        obtain ⟨d, hd, hbad⟩ := hdf
        rw [badRes_true_iff] at hbad
        have hd_done : d ∈ done := hdeps d hd
        have hd_ne : d ≠ t.key := (hdone_not d hd_done).1
        have hd_edge : d ∈ depsOf u t.key := by
          rw [depsOf_of_findTask u t hcanont]
          exact hd
        rcases hbad with hbad | hbad
        · refine ⟨d, ?_, ?_⟩
          · rw [← hkt]
            exact DepPath.single hd_edge
          · rw [hres', lookupRes_cons, if_neg (fun h => hd_ne h.symm)]
            exact hbad
        · obtain ⟨b, hpb, hbf⟩ := hskip d hbad
          have hb_done : b ∈ done := by
            rw [← hdone b]
            rw [hbf]
            rfl
          refine ⟨b, ?_, ?_⟩
          · rw [← hkt]
            exact DepPath.cons hd_edge hpb
          · rw [hres', lookupRes_cons, if_neg (fun h => (hdone_not b hb_done).1 h.symm)]
            exact hbf
      · rw [if_neg hkt] at hk
        obtain ⟨b, hpb, hbf⟩ := hskip k hk
        have hb_done : b ∈ done := by
          rw [← hdone b, hbf]
          rfl
        refine ⟨b, hpb, ?_⟩
        rw [hres', lookupRes_cons, if_neg (fun h => (hdone_not b hb_done).1 h.symm)]
        exact hbf
    have hexec' : ∀ k, k ∈ (runOne exec st t).executed →
        ∃ o, lookupRes (runOne exec st t).results k = some o ∧
          (o = .succeeded false ∨ o = .failed) := by
      intro k hk
      have hold : ∀ k, k ∈ st.executed →
          ∃ o, lookupRes (runOne exec st t).results k = some o ∧
            (o = .succeeded false ∨ o = .failed) := by
        intro k' hk'
        obtain ⟨o, ho, hoe⟩ := hexec k' hk'
        have hk'_done : k' ∈ done := by
          rw [← hdone k', ho]
          rfl
        refine ⟨o, ?_, hoe⟩
        rw [hres', lookupRes_cons, if_neg (fun h => (hdone_not k' hk'_done).1 h.symm)]
        exact ho
      cases hcase : branchOutcome exec st.cache st.results t with
      | succeeded fromCache =>
        cases fromCache with
        | true =>
          have := (runOne_noexec_state exec st t (Or.inl hcase)).2
          rw [this] at hk
          exact hold k hk
        | false =>
          have := (runOne_exec_state exec st t (Or.inl hcase)).2
          rw [this] at hk
          rcases List.mem_append.mp hk with hk | hk
          · exact hold k hk
          · rw [List.mem_singleton] at hk
            subst hk
            refine ⟨.succeeded false, ?_, Or.inl rfl⟩
            rw [hres', lookupRes_cons, if_pos rfl, hcase]
      | failed =>
        have := (runOne_exec_state exec st t (Or.inr hcase)).2
        rw [this] at hk
        rcases List.mem_append.mp hk with hk | hk
        · exact hold k hk
        · rw [List.mem_singleton] at hk
          subst hk
          refine ⟨.failed, ?_, Or.inr rfl⟩
          rw [hres', lookupRes_cons, if_pos rfl, hcase]
      | skipped =>
        have := (runOne_noexec_state exec st t (Or.inr hcase)).2
        rw [this] at hk
        exact hold k hk
    obtain ⟨I1, I2, I3, I4, I5, I6, I7, I8⟩ :=
      ih (runOne exec st t) (done ++ [t.key]) hdone' hnd' htopo' hcanon' hskip' hexec'
    have hfin_t : ∀ k, k ≠ t.key → k ∉ rest.map (·.key) →
        lookupRes (runAll exec (runOne exec st t) rest).results k =
          lookupRes st.results k := by
      intro k hk1 hk2
      rw [I1 k hk2, hres', lookupRes_cons, if_neg (fun h => hk1 h.symm)]
    have hstable : ∀ d ∈ done,
        lookupRes (runAll exec (runOne exec st t) rest).results d =
          lookupRes st.results d := by
      intro d hd
      exact hfin_t d (hdone_not d hd).1 (hdone_not d hd).2
    have hbo_fin : branchOutcome exec st.cache
        (runAll exec (runOne exec st t) rest).results t =
        branchOutcome exec st.cache st.results t := by
      refine branchOutcome_congr_results exec st.cache _ _ t ?_
      intro d hd
      exact hstable d (hdeps d hd)
    have hlook_t : lookupRes (runAll exec (runOne exec st t) rest).results t.key =
        some (branchOutcome exec st.cache st.results t) := by
      rw [I1 t.key htk_rest, hres', lookupRes_cons, if_pos rfl]
    refine ⟨?_, ?_, ?_, ?_, I5, I6, ?_, ?_⟩
    · intro k hk
      have hk1 : k ≠ t.key := fun h => hk (by simp [h])
      have hk2 : k ∉ rest.map (·.key) := fun h => hk (by simp [h])
      show lookupRes (runAll exec (runOne exec st t) rest).results k = _
      exact hfin_t k hk1 hk2
    · intro k v hk
      have hk1 : k ≠ t.key := fun h => hk (by simp [h])
      have hk2 : k ∉ rest.map (·.key) := fun h => hk (by simp [h])
      show cacheGet (runAll exec (runOne exec st t) rest).cache k v = _
      rw [I2 k v hk2]
      exact runOne_cacheGet_ne exec st t k v hk1
    · intro k
      show (lookupRes (runAll exec (runOne exec st t) rest).results k).isSome ↔ _
      rw [I3 k]
      constructor
      · rintro (h | h)
        · rcases List.mem_append.mp h with h | h
          · exact Or.inl h
          · rw [List.mem_singleton] at h
            refine Or.inr ?_
            rw [List.map_cons, h]
            exact List.mem_cons_self _ _
        · refine Or.inr ?_
          rw [List.map_cons]
          exact List.mem_cons_of_mem _ h
      · rintro (h | h)
        · exact Or.inl (List.mem_append.mpr (Or.inl h))
        · rw [List.map_cons] at h
          rcases List.mem_cons.mp h with h | h
          · exact Or.inl (List.mem_append.mpr (Or.inr (List.mem_singleton.mpr h)))
          · exact Or.inr h
    · intro x hx
      show lookupRes (runAll exec (runOne exec st t) rest).results x.key =
        some (branchOutcome exec st.cache
          (runAll exec (runOne exec st t) rest).results x)
      rcases List.mem_cons.mp hx with hx | hx
      · subst hx
        rw [hbo_fin]
        exact hlook_t
      · have hxk_ne : x.key ≠ t.key := by
          intro he
          exact htk_rest (he ▸ List.mem_map.mpr ⟨x, hx, rfl⟩)
        have hbc : branchOutcome exec st.cache
            (runAll exec (runOne exec st t) rest).results x =
            branchOutcome exec (runOne exec st t).cache
              (runAll exec (runOne exec st t) rest).results x := by
          refine branchOutcome_congr_cache exec _ _ _ x ?_
          exact (runOne_cacheGet_ne exec st t x.key x.version hxk_ne).symm
        rw [hbc]
        exact I4 x hx
    · intro x hx hbr
      simp only [runAll] at hbr
      show cacheGet (runAll exec (runOne exec st t) rest).cache x.key x.version =
        some (exec x.key x.version)
      rcases List.mem_cons.mp hx with hx | hx
      · subst hx
        rw [hbo_fin] at hbr
        have hst := runOne_exec_state exec st x hbr
        rw [I2 x.key x.version htk_rest, hst.1, cacheGet_cons, if_pos ⟨rfl, rfl⟩]
      · have hxk_ne : x.key ≠ t.key := by
          intro he
          exact htk_rest (he ▸ List.mem_map.mpr ⟨x, hx, rfl⟩)
        have hbc : branchOutcome exec st.cache
            (runAll exec (runOne exec st t) rest).results x =
            branchOutcome exec (runOne exec st t).cache
              (runAll exec (runOne exec st t) rest).results x := by
          refine branchOutcome_congr_cache exec _ _ _ x ?_
          exact (runOne_cacheGet_ne exec st t x.key x.version hxk_ne).symm
        rw [hbc] at hbr
        exact I7 x hx hbr
    · intro x hx hbr v
      simp only [runAll] at hbr
      show cacheGet (runAll exec (runOne exec st t) rest).cache x.key v =
        cacheGet st.cache x.key v
      rcases List.mem_cons.mp hx with hx | hx
      · subst hx
        rw [hbo_fin] at hbr
        have hst := runOne_noexec_state exec st x hbr
        rw [I2 x.key v htk_rest, hst.1]
      · have hxk_ne : x.key ≠ t.key := by
          intro he
          exact htk_rest (he ▸ List.mem_map.mpr ⟨x, hx, rfl⟩)
        have hbc : branchOutcome exec st.cache
            (runAll exec (runOne exec st t) rest).results x =
            branchOutcome exec (runOne exec st t).cache
              (runAll exec (runOne exec st t) rest).results x := by
          refine branchOutcome_congr_cache exec _ _ _ x ?_
          exact (runOne_cacheGet_ne exec st t x.key x.version hxk_ne).symm
        rw [hbc] at hbr
        rw [I8 x hx hbr v]
        exact runOne_cacheGet_ne exec st t x.key v hxk_ne

/-- Modelled from the spec: the Task Graph contract
`process(tasks) -> mapping key to TaskResult` of section 4.1 (the
scheduler source is missing from the sampled files). Steps: merge the
submitted tasks with the config graph universe and de-duplicate by key
(force-OR); compute the dependency closure of the submitted keys; fail on
an unknown dependency reference; topologically sort the admitted tasks,
failing with a circular error on a cycle (before any execution, so no
partial results); then run every admitted task in order with failure
propagation and cache short-circuit. Individual task failures never
produce an error; they are recorded in the returned result map. -/
def process (cfg : List GTask) (exec : String → Nat → Bool)
    (cache0 : List ((String × Nat) × Bool)) (ts : List GTask) :
    Except GardenError RunState :=
  match (closure (dedupTasks (ts ++ cfg)) (ts.map (·.key))).find?
      (fun k => (findTask (dedupTasks (ts ++ cfg)) k).isNone) with
  | some k => .error (.unknownDependency k)
  | none =>
    match topoSort (dedupTasks (ts ++ cfg))
        ((closure (dedupTasks (ts ++ cfg)) (ts.map (·.key))).filterMap
          (findTask (dedupTasks (ts ++ cfg)))) with
    | .error e => .error e
    | .ok order => .ok (runAll exec { results := [], cache := cache0, executed := [] } order)

/-- The results list of a `process` outcome (empty on error). -/
def resultsOf : Except GardenError RunState → List (String × Outcome)
  | .ok st => st.results
  | .error _ => []

theorem findTask_key (u : List GTask) (k : String) (t : GTask)
    (h : findTask u k = some t) : t.key = k := by
  have := List.find?_some h
  simpa using this

theorem findTask_of_mem_nodup (u : List GTask) (t : GTask)
    (hnd : (u.map (·.key)).Nodup) (ht : t ∈ u) : findTask u t.key = some t := by
  induction u with
  | nil => cases ht
  | cons h rest ih =>
    rw [List.map_cons, List.nodup_cons] at hnd
    rcases List.mem_cons.mp ht with ht | ht
    · subst ht
      unfold findTask
      exact List.find?_cons_of_pos _ (by simp)
    · by_cases hk : h.key = t.key
      · exfalso
        refine hnd.1 ?_
        rw [hk]
        exact List.mem_map.mpr ⟨t, ht, rfl⟩
      · unfold findTask
        rw [List.find?_cons_of_neg]
        · exact ih hnd.2 ht
        · show ¬((h.key == t.key) = true)
          simp only [beq_iff_eq]
          exact hk
  
theorem admitted_keys (u : List GTask) :
    ∀ (clo : List String), (∀ k ∈ clo, (findTask u k).isSome) →
      (clo.filterMap (findTask u)).map (·.key) = clo := by
  intro clo
  induction clo with
  | nil => intro _; rfl
  | cons k rest ih =>
    intro h
    have hk := h k (List.mem_cons_self k rest)
    obtain ⟨t, ht⟩ := Option.isSome_iff_exists.mp hk
    rw [List.filterMap_cons, ht]
    rw [List.map_cons]
    rw [findTask_key u k t ht]
    rw [ih (fun x hx => h x (List.mem_cons_of_mem k hx))]

theorem admitted_mem_u (u : List GTask) (clo : List String) (t : GTask)
    (h : t ∈ clo.filterMap (findTask u)) : t ∈ u := by
  obtain ⟨k, _, hk⟩ := List.mem_filterMap.mp h
  exact List.mem_of_find?_eq_some hk

/-- Structure of a successful `process` run: the executed order is a
duplicate-free topological order covering exactly the closure of the
submitted keys, every order task is the canonical task of its key, the
order is dependency-closed, and the output is the run over that order. -/
theorem process_ok_full (cfg : List GTask) (exec : String → Nat → Bool)
    (cache0 : List ((String × Nat) × Bool)) (ts : List GTask) (out : RunState)
    (h : process cfg exec cache0 ts = .ok out) :
    ∃ order : List GTask,
      (∀ k, k ∈ order.map (·.key) ↔
        k ∈ closure (dedupTasks (ts ++ cfg)) (ts.map (·.key))) ∧
      (∀ t ∈ order, findTask (dedupTasks (ts ++ cfg)) t.key = some t) ∧
      (∀ t ∈ order, ∀ d ∈ t.deps, d ∈ order.map (·.key)) ∧
      out = runAll exec { results := [], cache := cache0, executed := [] } order ∧
      topoOK [] order ∧ (order.map (·.key)).Nodup := by
  unfold process at h
  cases hf : (closure (dedupTasks (ts ++ cfg)) (ts.map (·.key))).find?
      (fun k => (findTask (dedupTasks (ts ++ cfg)) k).isNone) with
  | some k =>
    rw [hf] at h
    cases h
  | none =>
    rw [hf] at h
    have hres : ∀ k ∈ closure (dedupTasks (ts ++ cfg)) (ts.map (·.key)),
        (findTask (dedupTasks (ts ++ cfg)) k).isSome := by
      intro k hk
      have hne : ¬ (findTask (dedupTasks (ts ++ cfg)) k = none) := by
        simpa using List.find?_eq_none.mp hf k hk
      exact Option.ne_none_iff_isSome.mp hne
    have hkeys := admitted_keys (dedupTasks (ts ++ cfg)) _ hres
    cases hts : topoSort (dedupTasks (ts ++ cfg))
        ((closure (dedupTasks (ts ++ cfg)) (ts.map (·.key))).filterMap
          (findTask (dedupTasks (ts ++ cfg)))) with
    | error e =>
      rw [hts] at h
      cases h
    | ok order =>
      rw [hts] at h
      simp only [Except.ok.injEq] at h
      subst h
      have hund : ((dedupTasks (ts ++ cfg)).map (·.key)).Nodup :=
        (dedupTasks_keys_nodup (ts ++ cfg))
      have hcanon0 : ∀ t ∈ (closure (dedupTasks (ts ++ cfg)) (ts.map (·.key))).filterMap
          (findTask (dedupTasks (ts ++ cfg))),
          findTask (dedupTasks (ts ++ cfg)) t.key = some t := by
        intro t ht
        exact findTask_of_mem_nodup _ t hund (admitted_mem_u _ _ t ht)
      have hclosed0 : ∀ t ∈ (closure (dedupTasks (ts ++ cfg)) (ts.map (·.key))).filterMap
          (findTask (dedupTasks (ts ++ cfg))),
          ∀ d ∈ t.deps,
            d ∈ ((closure (dedupTasks (ts ++ cfg)) (ts.map (·.key))).filterMap
              (findTask (dedupTasks (ts ++ cfg)))).map (·.key) := by
        intro t ht d hd
        rw [hkeys]
        obtain ⟨k, hkc, hkf⟩ := List.mem_filterMap.mp ht
        have htk := findTask_key _ k t hkf
        refine closure_closed _ _ k hkc d ?_
        have hkf2 : findTask (dedupTasks (ts ++ cfg)) t.key = some t := by
          rw [htk]
          exact hkf
        rw [← htk, depsOf_of_findTask _ t hkf2]
        exact hd
      obtain ⟨htopo, hmemb, hndord⟩ := kahnAux_ok_spec (dedupTasks (ts ++ cfg)) _ [] _
        (Nat.le_refl _) trivial
        (by
          intro t ht d hd
          exact Or.inr (hclosed0 t ht d hd))
        (by
          rw [List.nil_append, hkeys]
          exact closure_nodup _ _)
        order hts
      refine ⟨order, ?_, ?_, ?_, rfl, htopo, hndord⟩
      · intro k
        rw [← hkeys]
        constructor
        · intro hk
          obtain ⟨x, hx, hxk⟩ := List.mem_map.mp hk
          exact List.mem_map.mpr ⟨x, by simpa using (hmemb x).mp hx, hxk⟩
        · intro hk
          obtain ⟨x, hx, hxk⟩ := List.mem_map.mp hk
          exact List.mem_map.mpr ⟨x, (hmemb x).mpr (by simpa using hx), hxk⟩
      · intro t ht
        exact hcanon0 t (by simpa using (hmemb t).mp ht)
      · intro t ht d hd
        have := hclosed0 t (by simpa using (hmemb t).mp ht) d hd
        rw [hkeys] at this
        -- back to order keys
        obtain ⟨x, hx, hxk⟩ := List.mem_map.mp ((by
          rw [← hkeys] at this
          exact this) : d ∈ _)
        exact List.mem_map.mpr ⟨x, (hmemb x).mpr (by simpa using hx), hxk⟩

/-- Consolidated facts about a successful `process` run, obtained by
instantiating the run-phase master lemma at the initial state. -/
theorem process_ok_run (cfg : List GTask) (exec : String → Nat → Bool)
    (cache0 : List ((String × Nat) × Bool)) (ts : List GTask) (out : RunState)
    (h : process cfg exec cache0 ts = .ok out) :
    ∃ order : List GTask,
      (∀ k, k ∈ order.map (·.key) ↔
        k ∈ closure (dedupTasks (ts ++ cfg)) (ts.map (·.key))) ∧
      (∀ t ∈ order, findTask (dedupTasks (ts ++ cfg)) t.key = some t) ∧
      (∀ t ∈ order, ∀ d ∈ t.deps, d ∈ order.map (·.key)) ∧
      (∀ k, (lookupRes out.results k).isSome ↔ k ∈ order.map (·.key)) ∧
      (∀ t ∈ order, lookupRes out.results t.key =
          some (branchOutcome exec cache0 out.results t)) ∧
      (∀ k, k ∈ out.executed → ∃ o, lookupRes out.results k = some o ∧
          (o = .succeeded false ∨ o = .failed)) ∧
      (∀ k, lookupRes out.results k = some .skipped →
          ∃ b, DepPath (dedupTasks (ts ++ cfg)) k b ∧
            lookupRes out.results b = some .failed) ∧
      (∀ t ∈ order, (branchOutcome exec cache0 out.results t = .succeeded false ∨
          branchOutcome exec cache0 out.results t = .failed) →
          cacheGet out.cache t.key t.version = some (exec t.key t.version)) ∧
      (∀ t ∈ order, (branchOutcome exec cache0 out.results t = .succeeded true ∨
          branchOutcome exec cache0 out.results t = .skipped) →
          ∀ v, cacheGet out.cache t.key v = cacheGet cache0 t.key v) := by
  obtain ⟨order, hclo, hcanon, hclosed, hout, htopo, hnd⟩ :=
    process_ok_full cfg exec cache0 ts out h
  subst hout
  obtain ⟨_, _, M3, M4, M5, M6, M7, M8⟩ :=
    runAll_spec (dedupTasks (ts ++ cfg)) exec order
      { results := [], cache := cache0, executed := [] } []
      (by intro k; simp [lookupRes])
      (by simpa using hnd)
      htopo
      hcanon
      (by intro k hk; simp [lookupRes] at hk)
      (by intro k hk; cases hk)
  refine ⟨order, hclo, hcanon, hclosed, ?_, M4, M5, M6, M7, M8⟩
  intro k
  rw [M3 k]
  simp

/-- C1: spec-modelled. Whenever `process` returns a result map, it
contains a result for every submitted task and for every transitive
dependency of a submitted task. The `Outcome` type has only terminal
values (succeeded, failed, skipped), so no reachable key is left pending:
every reachable key is mapped to a terminal outcome. -/
theorem process_results_complete (cfg : List GTask) (exec : String → Nat → Bool)
    (cache0 : List ((String × Nat) × Bool)) (ts : List GTask) (out : RunState)
    (h : process cfg exec cache0 ts = .ok out) :
    (∀ t ∈ ts, ∃ o, lookupRes out.results t.key = some o) ∧
    (∀ k, Reach (dedupTasks (ts ++ cfg)) (ts.map (·.key)) k →
      ∃ o, lookupRes out.results k = some o) := by
  obtain ⟨order, hclo, _, _, hsome, _⟩ := process_ok_run cfg exec cache0 ts out h
  have main : ∀ k, Reach (dedupTasks (ts ++ cfg)) (ts.map (·.key)) k →
      ∃ o, lookupRes out.results k = some o := by
    intro k hk
    have hc := closure_complete (dedupTasks (ts ++ cfg)) (ts.map (·.key)) k hk
    have : (lookupRes out.results k).isSome := by
      rw [hsome k, hclo k]
      exact hc
    exact Option.isSome_iff_exists.mp this
  refine ⟨?_, main⟩
  intro t ht
  exact main t.key (Reach.base (List.mem_map.mpr ⟨t, ht, rfl⟩))

end Garden

namespace Garden

/-- A two-task line: a depends on b, everything succeeds. -/
def lineCfg : List GTask := [⟨"b", 0, false, []⟩]

/-- The submitted task of the two-task line. -/
def lineTs : List GTask := [⟨"a", 0, false, ["b"]⟩]

/-- An executor that always succeeds. -/
def execAll : String → Nat → Bool := fun _ _ => true

/-- Witness for C1: in the two-task line, the transitive dependency b of
the submitted task a receives a result. -/
theorem process_results_complete_witness :
    ∃ out, process lineCfg execAll [] lineTs = .ok out ∧
      ∃ o, lookupRes out.results "b" = some o := by
  cases hp : process lineCfg execAll [] lineTs with
  | error e =>
    exfalso
    have hok : (process lineCfg execAll [] lineTs).toOption.isSome = true := by decide
    rw [hp] at hok
    cases hok
  | ok out =>
    refine ⟨out, rfl, ?_⟩
    refine (process_results_complete lineCfg execAll [] lineTs out hp).2 "b" ?_
    refine Reach.step (u := dedupTasks (lineTs ++ lineCfg)) (k := "a")
      (t := ⟨"a", 0, false, ["b"]⟩) (Reach.base ?_) ?_ ?_
    · decide
    · decide
    · decide

/-- C4: spec-modelled failure propagation. If a task b ends Failed, every
task with a dependency path to b that has a result is Skipped (never
Succeeded) and its key is never executed; conversely a task is Skipped
only when some transitive dependency actually Failed, so tasks with no
path to a failure are never Skipped; and the overall `process` call
returns its result map (including failures) regardless of which executor
outcomes occur: replacing the executor can never turn a successful
`process` call into a raised error. -/
theorem process_failure_spec (cfg : List GTask) (exec : String → Nat → Bool)
    (cache0 : List ((String × Nat) × Bool)) (ts : List GTask) (out : RunState)
    (h : process cfg exec cache0 ts = .ok out) :
    (∀ a b, DepPath (dedupTasks (ts ++ cfg)) a b →
      lookupRes out.results b = some .failed →
      (∀ oa, lookupRes out.results a = some oa → oa = .skipped) ∧
      a ∉ out.executed) ∧
    (∀ k, lookupRes out.results k = some .skipped →
      ∃ b, DepPath (dedupTasks (ts ++ cfg)) k b ∧
        lookupRes out.results b = some .failed) ∧
    (∀ exec2, ∃ out2, process cfg exec2 cache0 ts = .ok out2) := by
  obtain ⟨order, hclo, hcanon, hclosed, hsome, hbr, hexec, hskip, _, _⟩ :=
    process_ok_run cfg exec cache0 ts out h
  have htask : ∀ a oa, lookupRes out.results a = some oa →
      ∃ ta, ta ∈ order ∧ ta.key = a := by
    intro a oa hoa
    have : a ∈ order.map (·.key) := by
      rw [← hsome a, hoa]
      rfl
    obtain ⟨ta, hta, htak⟩ := List.mem_map.mp this
    exact ⟨ta, hta, htak⟩
  have hskipof : ∀ a d oa, d ∈ depsOf (dedupTasks (ts ++ cfg)) a →
      badRes (lookupRes out.results d) = true →
      lookupRes out.results a = some oa → oa = .skipped := by
    intro a d oa hd hbad hoa
    obtain ⟨ta, hta, htak⟩ := htask a oa hoa
    have hcan := hcanon ta hta
    have hdeps : depsOf (dedupTasks (ts ++ cfg)) a = ta.deps := by
      rw [← htak]
      exact depsOf_of_findTask _ ta hcan
    have hdf : depFailed out.results ta = true := by
      rw [depFailed, List.any_eq_true]
      refine ⟨d, ?_, hbad⟩
      rw [← hdeps]
      exact hd
    have hbo := hbr ta hta
    rw [htak, hoa] at hbo
    have := Option.some.inj hbo
    rw [this]
    exact (branchOutcome_skipped_iff exec cache0 out.results ta).mpr hdf
  have hmain : ∀ a b, DepPath (dedupTasks (ts ++ cfg)) a b →
      lookupRes out.results b = some .failed →
      ∀ oa, lookupRes out.results a = some oa → oa = .skipped := by
    intro a b hpath
    induction hpath with
    | single hab =>
      intro hbf oa hoa
      refine hskipof _ _ oa hab ?_ hoa
      rw [hbf]
      rfl
    | cons hac hcb ih =>
      rename_i a' c' b'
      intro hbf oa hoa
      obtain ⟨ta, hta, htak⟩ := htask a' oa hoa
      have hcan := hcanon ta hta
      have hdeps : depsOf (dedupTasks (ts ++ cfg)) a' = ta.deps := by
        rw [← htak]
        exact depsOf_of_findTask _ ta hcan
      have hc_mem : c' ∈ order.map (·.key) := by
        refine hclosed ta hta c' ?_
        rw [← hdeps]
        exact hac
      have hc_some : (lookupRes out.results c').isSome := by
        rw [hsome c']
        exact hc_mem
      obtain ⟨oc, hoc⟩ := Option.isSome_iff_exists.mp hc_some
      have hcskip : oc = .skipped := ih hbf oc hoc
      refine hskipof _ _ oa hac ?_ hoa
      rw [hoc, hcskip]
      rfl
  refine ⟨?_, hskip, ?_⟩
  · intro a b hpath hbf
    refine ⟨hmain a b hpath hbf, ?_⟩
    intro hexeca
    obtain ⟨o, ho, hcase⟩ := hexec a hexeca
    have := hmain a b hpath hbf o ho
    rcases hcase with hc | hc <;> rw [hc] at this <;> cases this
  · intro exec2
    unfold process at h ⊢
    cases hf : (closure (dedupTasks (ts ++ cfg)) (ts.map (·.key))).find?
        (fun k => (findTask (dedupTasks (ts ++ cfg)) k).isNone) with
    | some k =>
      rw [hf] at h
      cases h
    | none =>
      rw [hf] at h
      cases hts : topoSort (dedupTasks (ts ++ cfg))
          ((closure (dedupTasks (ts ++ cfg)) (ts.map (·.key))).filterMap
            (findTask (dedupTasks (ts ++ cfg)))) with
      | error e =>
        rw [hts] at h
        cases h
      | ok order2 =>
        exact ⟨_, rfl⟩

end Garden

namespace Garden

/-- Failure scenario: b and z are leaves, a depends on b. -/
def failCfg : List GTask := [⟨"b", 0, false, []⟩, ⟨"z", 0, false, []⟩]

/-- Submitted tasks of the failure scenario: a (depending on b) and z. -/
def failTs : List GTask := [⟨"a", 0, false, ["b"]⟩, ⟨"z", 0, false, []⟩]

/-- An executor that fails exactly task b. -/
def execFailB : String → Nat → Bool := fun k _ => k != "b"

/-- Witness for C4: b fails, so a (which depends on b) is Skipped and
never executed, while the unrelated z completes normally. -/
theorem process_failure_spec_witness :
    ∃ out, process failCfg execFailB [] failTs = .ok out ∧
      (∀ oa, lookupRes out.results "a" = some oa → oa = .skipped) ∧
      "a" ∉ out.executed ∧
      lookupRes out.results "z" = some (.succeeded false) := by
  cases hp : process failCfg execFailB [] failTs with
  | error e =>
    exfalso
    have hok : (process failCfg execFailB [] failTs).toOption.isSome = true := by decide
    rw [hp] at hok
    cases hok
  | ok out =>
    have hbf : lookupRes out.results "b" = some .failed := by
      have h2 : lookupRes (resultsOf (process failCfg execFailB [] failTs)) "b" =
          some .failed := by decide
      rw [hp] at h2
      exact h2
    have hz : lookupRes out.results "z" = some (.succeeded false) := by
      have h2 : lookupRes (resultsOf (process failCfg execFailB [] failTs)) "z" =
          some (.succeeded false) := by decide
      rw [hp] at h2
      exact h2
    obtain ⟨hmain, _, _⟩ := process_failure_spec failCfg execFailB [] failTs out hp
    obtain ⟨hsk, hne⟩ := hmain "a" "b" (DepPath.single (by decide)) hbf
    exact ⟨out, rfl, hsk, hne, hz⟩

theorem branchOutcome_succ_false_exec (exec : String → Nat → Bool)
    (c : List ((String × Nat) × Bool)) (rs : List (String × Outcome)) (t : GTask)
    (h : branchOutcome exec c rs t = .succeeded false) :
    exec t.key t.version = true := by
  unfold branchOutcome at h
  by_cases h1 : depFailed rs t
  · rw [if_pos h1] at h
    cases h
  · rw [if_neg h1] at h
    by_cases h2 : (!t.force && (cacheGet c t.key t.version == some true)) = true
    · rw [if_pos h2] at h
      simp at h
    · rw [if_neg h2] at h
      by_cases h3 : exec t.key t.version
      · exact h3
      · rw [if_neg h3] at h
        cases h

theorem branchOutcome_succ_true_hit (exec : String → Nat → Bool)
    (c : List ((String × Nat) × Bool)) (rs : List (String × Outcome)) (t : GTask)
    (h : branchOutcome exec c rs t = .succeeded true) :
    cacheGet c t.key t.version = some true ∧ t.force = false := by
  unfold branchOutcome at h
  by_cases h1 : depFailed rs t
  · rw [if_pos h1] at h
    cases h
  · rw [if_neg h1] at h
    by_cases h2 : (!t.force && (cacheGet c t.key t.version == some true)) = true
    · rw [Bool.and_eq_true] at h2
      obtain ⟨hf, hc⟩ := h2
      refine ⟨eq_of_beq hc, ?_⟩
      rw [Bool.not_eq_true'] at hf
      exact hf
    · rw [if_neg h2] at h
      by_cases h3 : exec t.key t.version
      · rw [if_pos h3] at h
        simp at h
      · rw [if_neg h3] at h
        cases h

/-- If an admitted task of a successful run is the canonical task of its
key, it occurs in the executed order. -/
theorem mem_order_of_reach (cfg : List GTask) (exec : String → Nat → Bool)
    (cache0 : List ((String × Nat) × Bool)) (ts : List GTask)
    (order : List GTask) (t : GTask)
    (hclo : ∀ k, k ∈ order.map (·.key) ↔
      k ∈ closure (dedupTasks (ts ++ cfg)) (ts.map (·.key)))
    (hcanon : ∀ x ∈ order, findTask (dedupTasks (ts ++ cfg)) x.key = some x)
    (htu : t ∈ dedupTasks (ts ++ cfg))
    (hreach : Reach (dedupTasks (ts ++ cfg)) (ts.map (·.key)) t.key) :
    t ∈ order := by
  have hkey : t.key ∈ order.map (·.key) := by
    rw [hclo t.key]
    exact closure_complete _ _ t.key hreach
  obtain ⟨ta, hta, htak⟩ := List.mem_map.mp hkey
  have h1 := hcanon ta hta
  have h2 : findTask (dedupTasks (ts ++ cfg)) t.key = some t :=
    findTask_of_mem_nodup _ t (dedupTasks_keys_nodup (ts ++ cfg)) htu
  rw [htak] at h1
  rw [h1] at h2
  rw [Option.some.injEq] at h2
  rw [← h2]
  exact hta

/-- C5: spec-modelled caching. (1) A reachable task with `force = false`
whose exact (key, version) has a cached success, and none of whose
dependencies failed or was skipped, completes straight from the cache
(outcome `succeeded fromCache=true`) with zero executor invocations for
its key. (2) After any run in which a task succeeded (executed or from
the cache), the returned cache holds a success for exactly that
(key, version) — so resubmitting the same task with the returned cache
again costs zero executor invocations by part 1. (3) The cache never
serves an entry for any other version: if no entry with exactly
(key, version) exists, the lookup misses. -/
theorem process_cache_spec (cfg : List GTask) (exec : String → Nat → Bool)
    (cache0 : List ((String × Nat) × Bool)) (ts : List GTask) (out : RunState)
    (h : process cfg exec cache0 ts = .ok out) :
    (∀ t, t ∈ dedupTasks (ts ++ cfg) →
      Reach (dedupTasks (ts ++ cfg)) (ts.map (·.key)) t.key →
      t.force = false →
      cacheGet cache0 t.key t.version = some true →
      (∀ d ∈ t.deps, badRes (lookupRes out.results d) = false) →
      lookupRes out.results t.key = some (.succeeded true) ∧
        t.key ∉ out.executed) ∧
    (∀ t, t ∈ dedupTasks (ts ++ cfg) →
      Reach (dedupTasks (ts ++ cfg)) (ts.map (·.key)) t.key →
      (∃ b, lookupRes out.results t.key = some (.succeeded b)) →
      cacheGet out.cache t.key t.version = some true) ∧
    (∀ (c : List ((String × Nat) × Bool)) (k : String) (v : Nat),
      (∀ b, ((k, v), b) ∉ c) → cacheGet c k v = none) := by
  obtain ⟨order, hclo, hcanon, hclosed, hsome, hbr, hexec, hskip, hc7, hc8⟩ :=
    process_ok_run cfg exec cache0 ts out h
  refine ⟨?_, ?_, ?_⟩
  · intro t htu hreach hforce hhit hdeps
    have hto : t ∈ order := mem_order_of_reach cfg exec cache0 ts order t hclo hcanon htu hreach
    have hdf : depFailed out.results t = false := by
      rw [depFailed, List.any_eq_false]
      intro d hd
      rw [hdeps d hd]
      exact Bool.false_ne_true
    have hbo : branchOutcome exec cache0 out.results t = .succeeded true := by
      unfold branchOutcome
      rw [hdf]
      rw [if_neg Bool.false_ne_true]
      rw [if_pos]
      rw [hforce, hhit]
      rfl
    have hlook : lookupRes out.results t.key = some (.succeeded true) := by
      rw [hbr t hto, hbo]
    refine ⟨hlook, ?_⟩
    intro hmem
    obtain ⟨o, ho, hcase⟩ := hexec t.key hmem
    rw [hlook] at ho
    have := Option.some.inj ho
    rcases hcase with hc | hc <;> rw [hc] at this <;> cases this
  · intro t htu hreach hsucc
    have hto : t ∈ order := mem_order_of_reach cfg exec cache0 ts order t hclo hcanon htu hreach
    obtain ⟨b, hb⟩ := hsucc
    have hbo : branchOutcome exec cache0 out.results t = .succeeded b := by
      have := hbr t hto
      rw [hb] at this
      exact (Option.some.inj this).symm
    cases b with
    | false =>
      have hcg := hc7 t hto (Or.inl hbo)
      have hex : exec t.key t.version = true :=
        branchOutcome_succ_false_exec exec cache0 out.results t hbo
      rw [hcg, hex]
    | true =>
      have hcg := hc8 t hto (Or.inl hbo) t.version
      rw [hcg]
      exact (branchOutcome_succ_true_hit exec cache0 out.results t hbo).1
  · intro c
    induction c with
    | nil => intro k v _; rfl
    | cons e rest ih =>
      intro k v hno
      obtain ⟨⟨k', v'⟩, b'⟩ := e
      rw [cacheGet_cons]
      rw [if_neg]
      · refine ih k v ?_
        intro b hb
        exact hno b (List.mem_cons_of_mem _ hb)
      · intro hc
        obtain ⟨hk, hv⟩ := hc
        refine hno b' ?_
        rw [hk, hv]
        exact List.mem_cons_self _ _

end Garden

namespace Garden

/-- A task with a primed cache entry for its exact version. -/
def cachedTs : List GTask := [⟨"x", 5, false, []⟩]

/-- A cache holding a success for ("x", 5). -/
def primedCache : List ((String × Nat) × Bool) := [(("x", 5), true)]

/-- Witness for C5: with a cached success for the exact (key, version) and
`force = false`, the task completes from the cache and its executor is
never invoked. -/
theorem process_cache_spec_witness :
    ∃ out, process [] execAll primedCache cachedTs = .ok out ∧
      lookupRes out.results "x" = some (.succeeded true) ∧ "x" ∉ out.executed := by
  cases hp : process [] execAll primedCache cachedTs with
  | error e =>
    exfalso
    have hok : (process [] execAll primedCache cachedTs).toOption.isSome = true := by decide
    rw [hp] at hok
    cases hok
  | ok out =>
    obtain ⟨h1, _, _⟩ := process_cache_spec [] execAll primedCache cachedTs out hp
    obtain ⟨ha, hb⟩ := h1 ⟨"x", 5, false, []⟩ (by decide) (Reach.base (by decide)) rfl
      (by decide) (by intro d hd; cases hd)
    exact ⟨out, rfl, ha, hb⟩

/-- C6: spec-modelled cycle detection. If dependency resolution reaches a
key that lies on a dependency cycle (and every reachable key resolves, so
resolution proceeds to cycle detection rather than failing on an unknown
reference), `process` fails with the configuration-class
`CircularDependencyError`, naming a list of keys that forms a genuine
dependency cycle. The error is produced during resolution, before any
task is admitted to execution, so no partial results are returned (the
error constructor carries no result map), and `process` is a total
function, so the call terminates rather than hanging or exhausting the
worker pool. -/
theorem process_cycle_spec (cfg : List GTask) (exec : String → Nat → Bool)
    (cache0 : List ((String × Nat) × Bool)) (ts : List GTask)
    (hres : ∀ x, Reach (dedupTasks (ts ++ cfg)) (ts.map (·.key)) x →
      (findTask (dedupTasks (ts ++ cfg)) x).isSome)
    (k : String)
    (hk : Reach (dedupTasks (ts ++ cfg)) (ts.map (·.key)) k)
    (hcyc : DepPath (dedupTasks (ts ++ cfg)) k k) :
    ∃ c, process cfg exec cache0 ts = .error (.circular c) ∧
      IsCycle (dedupTasks (ts ++ cfg)) c := by
  have hresclo : ∀ x ∈ closure (dedupTasks (ts ++ cfg)) (ts.map (·.key)),
      (findTask (dedupTasks (ts ++ cfg)) x).isSome :=
    fun x hx => hres x (closure_sound _ _ x hx)
  have hfnone : (closure (dedupTasks (ts ++ cfg)) (ts.map (·.key))).find?
      (fun k => (findTask (dedupTasks (ts ++ cfg)) k).isNone) = none := by
    rw [List.find?_eq_none]
    intro x hx habs
    have hn : findTask (dedupTasks (ts ++ cfg)) x = none := by
      cases hft : findTask (dedupTasks (ts ++ cfg)) x
      · rfl
      · rw [hft] at habs
        cases habs
    have hs := hresclo x hx
    rw [hn] at hs
    cases hs
  obtain ⟨C, hCne, hCd, hCr⟩ := cycle_set_of_depPath (dedupTasks (ts ++ cfg))
    (ts.map (·.key)) k hk hcyc
  have hkeys := admitted_keys (dedupTasks (ts ++ cfg)) _ hresclo
  have hCp : ∀ x ∈ C,
      x ∈ ((closure (dedupTasks (ts ++ cfg)) (ts.map (·.key))).filterMap
        (findTask (dedupTasks (ts ++ cfg)))).map (·.key) := by
    intro x hx
    rw [hkeys]
    exact closure_complete _ _ x (hCr x hx)
  have hund : ((dedupTasks (ts ++ cfg)).map (·.key)).Nodup :=
    (dedupTasks_keys_nodup (ts ++ cfg))
  have hcanon0 : ∀ t ∈ (closure (dedupTasks (ts ++ cfg)) (ts.map (·.key))).filterMap
      (findTask (dedupTasks (ts ++ cfg))),
      findTask (dedupTasks (ts ++ cfg)) t.key = some t :=
    fun t ht => findTask_of_mem_nodup _ t hund (admitted_mem_u _ _ t ht)
  have hnd0 : ((([] : List GTask) ++ (closure (dedupTasks (ts ++ cfg)) (ts.map (·.key))).filterMap
      (findTask (dedupTasks (ts ++ cfg)))).map (·.key)).Nodup := by
    rw [List.nil_append, hkeys]
    exact closure_nodup _ _
  have hclosed0 : ∀ t ∈ (closure (dedupTasks (ts ++ cfg)) (ts.map (·.key))).filterMap
      (findTask (dedupTasks (ts ++ cfg))),
      ∀ d ∈ t.deps,
        d ∈ (([] : List GTask)).map (·.key) ∨
        d ∈ ((closure (dedupTasks (ts ++ cfg)) (ts.map (·.key))).filterMap
          (findTask (dedupTasks (ts ++ cfg)))).map (·.key) := by
    intro t ht d hd
    right
    rw [hkeys]
    obtain ⟨kk, hkc, hkf⟩ := List.mem_filterMap.mp ht
    have htk := findTask_key _ kk t hkf
    refine closure_closed _ _ kk hkc d ?_
    have hkf2 : findTask (dedupTasks (ts ++ cfg)) t.key = some t := by
      rw [htk]
      exact hkf
    rw [← htk, depsOf_of_findTask _ t hkf2]
    exact hd
  cases hts : topoSort (dedupTasks (ts ++ cfg))
      ((closure (dedupTasks (ts ++ cfg)) (ts.map (·.key))).filterMap
        (findTask (dedupTasks (ts ++ cfg)))) with
  | ok l =>
    exact absurd hts (kahnAux_no_ok (dedupTasks (ts ++ cfg)) _ [] _ C hCne hCp hCd hnd0
      hcanon0 l)
  | error e =>
    obtain ⟨rem, herm, hremne, hremnd, hremH⟩ :=
      kahnAux_error_spec (dedupTasks (ts ++ cfg)) _ [] _ (Nat.le_refl _) hclosed0 hnd0
        hcanon0 e hts
    refine ⟨findCycle (dedupTasks (ts ++ cfg)) rem, ?_,
      findCycle_isCycle _ rem hremne hremnd hremH⟩
    unfold process
    rw [hfnone]
    dsimp only
    rw [hts]
    dsimp only
    rw [herm]

/-- The error of a `process` outcome, when it failed. -/
def errorOf : Except GardenError RunState → Option GardenError
  | .error e => some e
  | .ok _ => none

/-- The cyclic config graph: a depends on b, b on c, c on a. -/
def cycCfg : List GTask :=
  [⟨"a", 0, false, ["b"]⟩, ⟨"b", 0, false, ["c"]⟩, ⟨"c", 0, false, ["a"]⟩]

/-- The submitted task of the cyclic scenario. -/
def cycTs : List GTask := [⟨"a", 0, false, ["b"]⟩]

/-- Witness for C6: the graph a -> b -> c -> a makes `process` fail with a
circular configuration error naming a, b, c, and the named keys form a
genuine dependency cycle. -/
theorem process_cycle_spec_witness :
    errorOf (process cycCfg execAll [] cycTs) = some (.circular ["a", "b", "c"]) ∧
    ∃ c, process cycCfg execAll [] cycTs = .error (.circular c) ∧
      IsCycle (dedupTasks (cycTs ++ cycCfg)) c := by
  constructor
  · decide
  · refine process_cycle_spec cycCfg execAll [] cycTs ?_ "a" (Reach.base (by decide)) ?_
    · intro x hx
      have hc := closure_complete (dedupTasks (cycTs ++ cycCfg)) (cycTs.map (·.key)) x hx
      have he : closure (dedupTasks (cycTs ++ cycCfg)) (cycTs.map (·.key)) =
          ["a", "b", "c"] := by decide
      rw [he] at hc
      simp only [List.mem_cons, List.not_mem_nil, or_false] at hc
      rcases hc with h | h | h <;> subst h <;> decide
    · exact DepPath.cons
        (show "b" ∈ depsOf (dedupTasks (cycTs ++ cycCfg)) "a" by decide)
        (DepPath.cons
          (show "c" ∈ depsOf (dedupTasks (cycTs ++ cycCfg)) "b" by decide)
          (DepPath.single
            (show "a" ∈ depsOf (dedupTasks (cycTs ++ cycCfg)) "c" by decide)))

end Garden
